import Mathlib

/-!
Verification of the battery-puzzle search program.

The program consists of a `u64`-bitmask set type (`BitSet`), a
combination enumerator (`CombinationIter`) based on the classic
"next combination" bit trick, a `swap_remove`-based filter
(`remove_impossible_universes`) and a search loop (`main`).

Machine integers are modelled as `Nat`; `u64` values are kept below `2^64`
by the operations themselves.  The program is compiled with debug
assertions, so `debug_assert!` failures and arithmetic overflow (in this
program: a shift by 64 or more) abort execution; fallible steps are
therefore modelled in the `Except String` monad, with the abort message as
the error value.
-/

/-- Largest value of a `u64`. -/
def U64MAX : Nat := 2 ^ 64 - 1

/-- Fuelled population count: `v.count_ones()` on `u64`.  The fuel only
drives the recursion (`v / 2` strictly decreases), `countOnes` below
instantiates it sufficiently. -/
def countOnesFuel : Nat → Nat → Nat
  | 0, _ => 0
  | fuel + 1, v => if v = 0 then 0 else v % 2 + countOnesFuel fuel (v / 2)

/-- Population count of a bitmask: `u64::count_ones`. -/
def countOnes (v : Nat) : Nat := countOnesFuel v v

/-- Fuelled count of trailing zero bits (only meaningful for `v ≠ 0`). -/
def tzFuel : Nat → Nat → Nat
  | 0, _ => 0
  | fuel + 1, v => if v % 2 = 1 then 0 else tzFuel fuel (v / 2) + 1

/-- `u64::trailing_zeros`: 64 for 0, otherwise the exponent of the largest
power of two dividing `v`. -/
def trailingZeros (v : Nat) : Nat := if v = 0 then 64 else tzFuel v v

/-- Fuelled member-extraction loop of `BitSetIter::next`: repeatedly take
the lowest set bit's index and clear that bit (`self.0 ^= 1 << v`). -/
def bitIndicesFuel : Nat → Nat → List Nat
  | 0, _ => []
  | fuel + 1, v =>
    if v = 0 then []
    else trailingZeros v :: bitIndicesFuel fuel (v ^^^ (1 <<< trailingZeros v))

/-- The full element sequence a `BitSet` yields through `BitSetIter`
(ascending indices of set bits).  Fuel `v` suffices because the state
strictly decreases. -/
def bitIndices (v : Nat) : List Nat := bitIndicesFuel v v

/-- State of `CombinationIter`: the next value to yield (0 once the
sequence is exhausted) and the universe size `n`. -/
structure CombinationIter where
  next_val : Nat
  n : Nat
  deriving DecidableEq

/-- `CombinationIter::new(n, k)`.  The three `debug_assert!`s are checked
in order; afterwards `(1u64 << k) - 1` is computed, which in a debug build
aborts with a shift overflow when `k ≥ 64`. -/
def CombinationIter.new (n k : Nat) : Except String CombinationIter :=
  if ¬ n ≥ k then .error "k must be smaller than n"
  else if ¬ n ≤ 65 then .error "only n up to 64 is supported"
  else if ¬ k > 0 then .error "only positive k is supported"
  else if 64 ≤ k then .error "attempt to shift left with overflow"
  else .ok ⟨(1 <<< k) - 1, n⟩

/-- One step of `<CombinationIter as Iterator>::next`.  Yields `none` when
the sequence is exhausted, otherwise the yielded value and the successor
state.  `val & (1 + !val)` isolates the lowest set bit; `checked_add`
models the overflow check; the guard `x < (1 << self.n)` evaluates
`1u64 << n`, which aborts when `n ≥ 64`, and the repacking shift
`(x ^ val) >> (one_bit.trailing_zeros() + 2)` aborts when its amount
reaches 64 (both: debug-build shift overflow). -/
def cnext (it : CombinationIter) : Except String (Option (Nat × CombinationIter)) :=
  if it.next_val = 0 then .ok none
  else
    let val := it.next_val
    let one_bit := val &&& (1 + (U64MAX - val))
    match (if val + one_bit ≤ U64MAX then some (val + one_bit) else none) with
    | some x =>
      if 64 ≤ it.n then .error "attempt to shift left with overflow"
      else if x < 1 <<< it.n then
        if 64 ≤ trailingZeros one_bit + 2 then .error "attempt to shift right with overflow"
        else .ok (some (val, ⟨x ||| ((x ^^^ val) >>> (trailingZeros one_bit + 2)), it.n⟩))
      else .ok (some (val, ⟨0, it.n⟩))
    | none => .ok (some (val, ⟨0, it.n⟩))

/-- Fuelled exhaustion of the iterator, used to evaluate concrete
instances; `collect` below is the fuel-free semantics. -/
def collectFuel : Nat → CombinationIter → Except String (List Nat)
  | 0, _ => .error "out of fuel"
  | fuel + 1, it =>
    match cnext it with
    | .error e => .error e
    | .ok none => .ok []
    | .ok (some (v, it')) => (collectFuel fuel it').map (v :: ·)

/-! Fuel congruence lemmas: the fuelled functions agree for any
sufficient fuel, so the definitions above do not depend on the
particular fuel chosen. -/

theorem countOnesFuel_congr : ∀ {f g v : Nat}, v ≤ f → v ≤ g →
    countOnesFuel f v = countOnesFuel g v := by
  intro f
  induction f with
  | zero =>
    intro g v hf hg
    interval_cases v
    cases g <;> simp [countOnesFuel]
  | succ f ih =>
    intro g v hf hg
    match v, g with
    | 0, 0 => rfl
    | 0, g + 1 => simp [countOnesFuel]
    | v + 1, g + 1 =>
      simp only [countOnesFuel, if_neg (Nat.succ_ne_zero v)]
      have h1 : (v + 1) / 2 ≤ f := by omega
      have h2 : (v + 1) / 2 ≤ g := by omega
      rw [ih h1 h2]

theorem countOnes_zero : countOnes 0 = 0 := rfl

theorem countOnes_rec (v : Nat) (hv : v ≠ 0) :
    countOnes v = v % 2 + countOnes (v / 2) := by
  match v, hv with
  | v + 1, _ =>
    show countOnesFuel (v + 1) (v + 1) = _
    simp only [countOnesFuel, if_neg (Nat.succ_ne_zero v)]
    have : (v + 1) / 2 ≤ v := by omega
    rw [countOnesFuel_congr this (Nat.le_refl _)]
    rfl

/-- `countOnes` on a number split into its low bit and the rest. -/
theorem countOnes_two_mul_add (a b : Nat) (hb : b < 2) :
    countOnes (2 * a + b) = countOnes a + b := by
  rcases Nat.eq_zero_or_pos (2 * a + b) with h | h
  · have ha : a = 0 := by omega
    have hb0 : b = 0 := by omega
    subst ha; subst hb0; rfl
  · rw [countOnes_rec _ (by omega)]
    have h1 : (2 * a + b) % 2 = b := by omega
    have h2 : (2 * a + b) / 2 = a := by omega
    rw [h1, h2, Nat.add_comm]

theorem tzFuel_congr : ∀ {f g v : Nat}, 1 ≤ v → v ≤ f → v ≤ g →
    tzFuel f v = tzFuel g v := by
  intro f
  induction f with
  | zero => intro g v h1 hf; omega
  | succ f ih =>
    intro g v h1 hf hg
    match v, h1, g with
    | v + 1, _, g + 1 =>
      simp only [tzFuel]
      by_cases hodd : (v + 1) % 2 = 1
      · simp [hodd]
      · simp only [hodd, if_false]
        have hv2 : 1 ≤ (v + 1) / 2 := by omega
        have hf2 : (v + 1) / 2 ≤ f := by omega
        have hg2 : (v + 1) / 2 ≤ g := by omega
        rw [ih hv2 hf2 hg2]

theorem trailingZeros_odd (v : Nat) (h : v % 2 = 1) : trailingZeros v = 0 := by
  have hv : v ≠ 0 := by omega
  unfold trailingZeros
  rw [if_neg hv]
  match v, h with
  | v + 1, h => simp [tzFuel, h]

theorem trailingZeros_even (v : Nat) (hv : v ≠ 0) (h : v % 2 = 0) :
    trailingZeros v = trailingZeros (v / 2) + 1 := by
  have hv2 : v / 2 ≠ 0 := by omega
  unfold trailingZeros
  rw [if_neg hv, if_neg hv2]
  match v, hv with
  | v + 1, _ =>
    simp only [tzFuel, if_neg (by omega : ¬ (v + 1) % 2 = 1)]
    have h1 : 1 ≤ (v + 1) / 2 := by omega
    have h2 : (v + 1) / 2 ≤ v := by omega
    rw [tzFuel_congr h1 h2 (Nat.le_refl _)]

/-- Trailing zeros of an odd multiple of `2^t` is exactly `t`. -/
theorem trailingZeros_odd_mul_two_pow (M : Nat) (hM : M % 2 = 1) :
    ∀ t, trailingZeros (M * 2 ^ t) = t := by
  intro t
  induction t with
  | zero => simpa using trailingZeros_odd M hM
  | succ t ih =>
    have heq : M * 2 ^ (t + 1) = (M * 2 ^ t) * 2 := by ring
    have he : (M * 2 ^ t) * 2 % 2 = 0 := by omega
    have hne2 : (M * 2 ^ t) * 2 ≠ 0 := by
      have := Nat.pos_pow_of_pos t (show 0 < 2 by norm_num)
      have : 0 < M * 2 ^ t := Nat.mul_pos (by omega) this
      omega
    rw [heq, trailingZeros_even _ hne2 he, Nat.mul_div_cancel _ (by norm_num), ih]

theorem trailingZeros_two_pow (t : Nat) : trailingZeros (2 ^ t) = t := by
  simpa using trailingZeros_odd_mul_two_pow 1 rfl t

/-- Every nonzero number is an odd multiple of `2 ^ trailingZeros`. -/
theorem exists_odd_mul (v : Nat) (hv : v ≠ 0) :
    ∃ M, M % 2 = 1 ∧ v = M * 2 ^ trailingZeros v := by
  induction v using Nat.strong_induction_on with
  | _ v ih =>
    by_cases hodd : v % 2 = 1
    · exact ⟨v, hodd, by simp [trailingZeros_odd v hodd]⟩
    · have h2 : v % 2 = 0 := by omega
      have hv2 : v / 2 ≠ 0 := by omega
      obtain ⟨M, hM, hMe⟩ := ih (v / 2) (by omega) hv2
      refine ⟨M, hM, ?_⟩
      rw [trailingZeros_even v hv h2, pow_succ, ← Nat.mul_assoc]
      omega

/-! Bitwise toolkit over `Nat`. -/

/-- Bitwise AND distributes over the (low bit, rest) decomposition. -/
theorem land_bit_decomp (a b c d : Nat) (hb : b < 2) (hd : d < 2) :
    (2 * a + b) &&& (2 * c + d) = 2 * (a &&& c) + (b &&& d) := by
  apply Nat.eq_of_testBit_eq
  intro i
  cases i with
  | zero =>
    rw [Nat.testBit_and]
    simp only [Nat.testBit_zero]
    have h1 : (2 * a + b) % 2 = b := by omega
    have h2 : (2 * c + d) % 2 = d := by omega
    have h3 : (2 * (a &&& c) + (b &&& d)) % 2 = b &&& d := by
      have : b &&& d < 2 := Nat.and_lt_two_pow b (show d < 2 ^ 1 by omega)
      omega
    rw [h1, h2, h3]
    interval_cases b <;> interval_cases d <;> decide
  | succ i =>
    rw [Nat.testBit_and]
    simp only [Nat.testBit_succ]
    have h1 : (2 * a + b) / 2 = a := by omega
    have h2 : (2 * c + d) / 2 = c := by omega
    have h3 : (2 * (a &&& c) + (b &&& d)) / 2 = a &&& c := by
      have : b &&& d < 2 := Nat.and_lt_two_pow b (show d < 2 ^ 1 by omega)
      omega
    rw [h1, h2, h3, Nat.testBit_and]

/-- Bitwise AND distributes over multiplication by a power of two. -/
theorem land_mul_pow_two (t a b : Nat) :
    (2 ^ t * a) &&& (2 ^ t * b) = 2 ^ t * (a &&& b) := by
  apply Nat.eq_of_testBit_eq
  intro i
  simp only [Nat.testBit_and, Nat.testBit_mul_pow_two]
  by_cases h : t ≤ i <;> simp [h, Nat.testBit_and]

/-- Bitwise XOR distributes over multiplication by a power of two. -/
theorem xor_mul_pow_two (t a b : Nat) :
    (2 ^ t * a) ^^^ (2 ^ t * b) = 2 ^ t * (a ^^^ b) := by
  apply Nat.eq_of_testBit_eq
  intro i
  simp only [Nat.testBit_xor, Nat.testBit_mul_pow_two]
  by_cases h : t ≤ i <;> simp [h]

/-- Bitwise XOR distributes over the (low bit, rest) decomposition. -/
theorem xor_bit_decomp (a b c d : Nat) (hb : b < 2) (hd : d < 2) :
    (2 * a + b) ^^^ (2 * c + d) = 2 * (a ^^^ c) + (b ^^^ d) := by
  apply Nat.eq_of_testBit_eq
  intro i
  cases i with
  | zero =>
    rw [Nat.testBit_xor]
    simp only [Nat.testBit_zero]
    have h1 : (2 * a + b) % 2 = b := by omega
    have h2 : (2 * c + d) % 2 = d := by omega
    have h3 : (2 * (a ^^^ c) + (b ^^^ d)) % 2 = b ^^^ d := by
      have : b ^^^ d < 2 := Nat.xor_lt_two_pow (show b < 2 ^ 1 by omega) (by omega)
      omega
    rw [h1, h2, h3]
    interval_cases b <;> interval_cases d <;> decide
  | succ i =>
    rw [Nat.testBit_xor]
    simp only [Nat.testBit_succ]
    have h1 : (2 * a + b) / 2 = a := by omega
    have h2 : (2 * c + d) / 2 = c := by omega
    have h3 : (2 * (a ^^^ c) + (b ^^^ d)) / 2 = a ^^^ c := by
      have : b ^^^ d < 2 := Nat.xor_lt_two_pow (show b < 2 ^ 1 by omega) (by omega)
      omega
    rw [h1, h2, h3, Nat.testBit_xor]

/-- Subtraction from an all-ones mask is bitwise complement (as XOR). -/
theorem sub_eq_xor_two_pow_sub_one : ∀ (m a : Nat), a < 2 ^ m →
    2 ^ m - 1 - a = (2 ^ m - 1) ^^^ a := by
  intro m
  induction m with
  | zero =>
    intro a ha
    interval_cases a
    rfl
  | succ m ih =>
    intro a ha
    have hpow : 2 ^ (m + 1) = 2 * 2 ^ m := by ring
    have hsplit : a = 2 * (a / 2) + a % 2 := by omega
    have ha2 : a / 2 < 2 ^ m := by omega
    have h1 : 1 ≤ 2 ^ m := Nat.one_le_two_pow
    have hm1 : 2 ^ (m + 1) - 1 = 2 * (2 ^ m - 1) + 1 := by omega
    conv_rhs => rw [hm1, hsplit]
    rw [xor_bit_decomp _ 1 _ (a % 2) (by omega) (by omega), ← ih _ ha2]
    have hx : (1 : Nat) ^^^ a % 2 = 1 - a % 2 := by
      rcases Nat.mod_two_eq_zero_or_one a with h | h <;> rw [h] <;> decide
    rw [hx]
    omega

/-- A number and its complement in an all-ones mask share no bits. -/
theorem land_xor_compl_self {m a : Nat} (h : a < 2 ^ m) :
    a &&& ((2 ^ m - 1) ^^^ a) = 0 := by
  apply Nat.eq_of_testBit_eq
  intro i
  simp only [Nat.testBit_and, Nat.testBit_xor, Nat.zero_testBit]
  cases hi : a.testBit i
  · simp
  · have hge : 2 ^ i ≤ a := Nat.testBit_implies_ge hi
    have him : i < m := by
      by_contra hc
      have : 2 ^ m ≤ 2 ^ i := Nat.pow_le_pow_right (by norm_num) (by omega)
      omega
    simp [Nat.testBit_two_pow_sub_one, him]

/-- For odd `M < 2^s`, `M & (2^s - M)` isolates the lowest bit: 1. -/
theorem odd_land_two_pow_sub {s M : Nat} (hM : M % 2 = 1) (h : M < 2 ^ s) :
    M &&& (2 ^ s - M) = 1 := by
  have hs : 1 ≤ s := by
    rcases Nat.eq_zero_or_pos s with h0 | h0
    · subst h0; omega
    · omega
  have hone : 1 ≤ 2 ^ s := Nat.one_le_two_pow
  have hcompl : 2 ^ s - 1 - M = (2 ^ s - 1) ^^^ M := sub_eq_xor_two_pow_sub_one s M h
  have hdisj : M &&& (2 ^ s - 1 - M) = 0 := by
    rw [hcompl]
    exact land_xor_compl_self h
  set c := 2 ^ s - 1 - M with hc
  have hceven : c % 2 = 0 := by
    have h2s : 2 ^ s % 2 = 0 := by
      have : 2 ^ s = 2 * 2 ^ (s - 1) := by
        rw [← pow_succ']
        congr 1
        omega
      omega
    omega
  have hsub : 2 ^ s - M = c + 1 := by omega
  have hMsplit : M = 2 * (M / 2) + 1 := by omega
  have hcsplit : c + 1 = 2 * (c / 2) + 1 := by omega
  have hdisj2 : M / 2 &&& c / 2 = 0 := by
    have := hdisj
    conv at this => rw [hMsplit, (by omega : c = 2 * (c / 2) + 0)]
    rw [land_bit_decomp _ _ _ _ (by omega) (by omega)] at this
    omega
  rw [hsub, hMsplit, hcsplit, land_bit_decomp _ _ _ _ (by omega) (by omega), hdisj2]
  decide

/-- The Rust expression `val & (1 + !val)` on `u64` isolates the lowest
set bit of a nonzero value. -/
theorem one_bit_eq {v : Nat} (h0 : v ≠ 0) (hv : v ≤ U64MAX) :
    v &&& (1 + (U64MAX - v)) = 2 ^ trailingZeros v := by
  obtain ⟨M, hM, hMe⟩ := exists_odd_mul v h0
  set t := trailingZeros v with ht
  have hMpos : 1 ≤ M := by omega
  have h64 : (2 : Nat) ^ 64 - 1 = U64MAX := rfl
  have hv64 : v < 2 ^ 64 := by
    have : (1 : Nat) ≤ 2 ^ 64 := Nat.one_le_two_pow
    simp only [U64MAX] at hv
    omega
  have ht64 : t < 64 := by
    have h2t : 2 ^ t ≤ v := by
      calc 2 ^ t ≤ M * 2 ^ t := Nat.le_mul_of_pos_left _ hMpos
      _ = v := hMe.symm
    by_contra hc
    have : 2 ^ 64 ≤ 2 ^ t := Nat.pow_le_pow_right (by norm_num) (by omega)
    omega
  have hstep : 1 + (U64MAX - v) = 2 ^ 64 - v := by
    simp only [U64MAX]
    have : (1 : Nat) ≤ 2 ^ 64 := Nat.one_le_two_pow
    omega
  have hfactor : 2 ^ 64 = 2 ^ t * 2 ^ (64 - t) := by
    rw [← pow_add]
    congr 1
    omega
  have hMlt : M < 2 ^ (64 - t) := by
    have h1 : 2 ^ t * M < 2 ^ t * 2 ^ (64 - t) := by
      rw [← hfactor, Nat.mul_comm]
      omega
    exact Nat.lt_of_mul_lt_mul_left h1
  have hsubfac : 2 ^ 64 - v = 2 ^ t * (2 ^ (64 - t) - M) := by
    rw [hfactor, hMe, Nat.mul_sub_left_distrib]
    congr 1
    ring
  rw [hstep, hsubfac, hMe, (by ring : M * 2 ^ t = 2 ^ t * M), land_mul_pow_two,
    odd_land_two_pow_sub hM hMlt, Nat.mul_one]

/-! Population count arithmetic. -/

/-- `countOnes` is additive across a split at bit `m`. -/
theorem countOnes_mul_pow_add : ∀ (m a b : Nat), b < 2 ^ m →
    countOnes (2 ^ m * a + b) = countOnes a + countOnes b := by
  intro m
  induction m with
  | zero =>
    intro a b hb
    interval_cases b
    simp [countOnes_zero]
  | succ m ih =>
    intro a b hb
    have hpow : 2 ^ (m + 1) = 2 * 2 ^ m := by ring
    have hb2 : b / 2 < 2 ^ m := by omega
    have hsplit : 2 ^ (m + 1) * a + b = 2 * (2 ^ m * a + b / 2) + b % 2 := by
      have h3 : 2 ^ (m + 1) * a = 2 * (2 ^ m * a) := by rw [hpow]; ring
      omega
    rw [hsplit, countOnes_two_mul_add _ _ (by omega), ih a (b / 2) hb2]
    have hbb : countOnes b = countOnes (b / 2) + b % 2 := by
      conv_lhs => rw [(by omega : b = 2 * (b / 2) + b % 2)]
      rw [countOnes_two_mul_add _ _ (by omega)]
    omega

theorem countOnes_mul_pow (m a : Nat) : countOnes (2 ^ m * a) = countOnes a := by
  have := countOnes_mul_pow_add m a 0 (Nat.pos_pow_of_pos m (by norm_num))
  simpa [countOnes_zero] using this

theorem countOnes_two_pow (m : Nat) : countOnes (2 ^ m) = 1 := by
  have := countOnes_mul_pow m 1
  simpa using this

theorem countOnes_two_pow_sub_one : ∀ r : Nat, countOnes (2 ^ r - 1) = r := by
  intro r
  induction r with
  | zero => simp [countOnes_zero]
  | succ r ih =>
    have hpow : 2 ^ (r + 1) = 2 * 2 ^ r := by ring
    have h1 : 1 ≤ 2 ^ r := Nat.one_le_two_pow
    have : 2 ^ (r + 1) - 1 = 2 * (2 ^ r - 1) + 1 := by omega
    rw [this, countOnes_two_mul_add _ _ (by omega), ih]

theorem countOnes_le_of_lt : ∀ (m w : Nat), w < 2 ^ m → countOnes w ≤ m := by
  intro m
  induction m with
  | zero =>
    intro w hw
    interval_cases w
    simp [countOnes_zero]
  | succ m ih =>
    intro w hw
    have hpow : 2 ^ (m + 1) = 2 * 2 ^ m := by ring
    have h2 : w / 2 < 2 ^ m := by omega
    conv_lhs => rw [(by omega : w = 2 * (w / 2) + w % 2)]
    rw [countOnes_two_mul_add _ _ (by omega)]
    have := ih (w / 2) h2
    omega

/-- Complementing within the low `m` bits complements the popcount. -/
theorem countOnes_compl : ∀ (m w : Nat), w < 2 ^ m →
    countOnes (2 ^ m - 1 - w) = m - countOnes w := by
  intro m
  induction m with
  | zero =>
    intro w hw
    interval_cases w
    simp [countOnes_zero]
  | succ m ih =>
    intro w hw
    have hpow : 2 ^ (m + 1) = 2 * 2 ^ m := by ring
    have h1 : 1 ≤ 2 ^ m := Nat.one_le_two_pow
    have h2 : w / 2 < 2 ^ m := by omega
    have hsplit : 2 ^ (m + 1) - 1 - w = 2 * (2 ^ m - 1 - w / 2) + (1 - w % 2) := by omega
    rw [hsplit, countOnes_two_mul_add _ _ (by omega), ih _ h2]
    have hcw : countOnes w = countOnes (w / 2) + w % 2 := by
      conv_lhs => rw [(by omega : w = 2 * (w / 2) + w % 2)]
      rw [countOnes_two_mul_add _ _ (by omega)]
    have := countOnes_le_of_lt m (w / 2) h2
    omega

/-- The least number with `j` set bits is `2^j - 1`. -/
theorem two_pow_sub_one_le_of_countOnes (w : Nat) : 2 ^ countOnes w - 1 ≤ w := by
  induction w using Nat.strong_induction_on with
  | _ w ih =>
    rcases Nat.eq_zero_or_pos w with h0 | h0
    · subst h0; simp [countOnes_zero]
    · have hsplit : w = 2 * (w / 2) + w % 2 := by omega
      have hco : countOnes w = countOnes (w / 2) + w % 2 := by
        conv_lhs => rw [hsplit]
        rw [countOnes_two_mul_add _ _ (by omega)]
      rcases Nat.eq_zero_or_pos (w / 2) with hq | hq
      · have : w = 1 := by omega
        subst this
        have : countOnes 1 = 1 := rfl
        simp [this]
      · have hrec := ih (w / 2) (by omega)
        rw [hco]
        rcases Nat.mod_two_eq_zero_or_one w with hm | hm
        · rw [hm]
          simp only [Nat.add_zero]
          have h1 : 1 ≤ 2 ^ countOnes (w / 2) := Nat.one_le_two_pow
          omega
        · rw [hm]
          have hps : 2 ^ (countOnes (w / 2) + 1) = 2 * 2 ^ countOnes (w / 2) := by ring
          omega

/-- The greatest number with `r` set bits below `2^(t+r)` is
`(2^r - 1) * 2^t` (the top `r` bits). -/
theorem le_max_of_countOnes {t r w : Nat} (hw : w < 2 ^ (t + r))
    (hc : countOnes w = r) : w ≤ (2 ^ r - 1) * 2 ^ t := by
  have hcompl : countOnes (2 ^ (t + r) - 1 - w) = t := by
    rw [countOnes_compl _ _ hw, hc]
    omega
  have hmin := two_pow_sub_one_le_of_countOnes (2 ^ (t + r) - 1 - w)
  rw [hcompl] at hmin
  have hfac : 2 ^ (t + r) = 2 ^ t * 2 ^ r := by rw [pow_add]
  have h1 : 1 ≤ 2 ^ t := Nat.one_le_two_pow
  have h2 : 1 ≤ 2 ^ r := Nat.one_le_two_pow
  have : (2 ^ r - 1) * 2 ^ t = 2 ^ t * 2 ^ r - 2 ^ t := by
    rw [Nat.mul_sub_right_distrib]
    ring_nf
  omega

/-! XOR and OR helpers. -/

/-- XOR cancels a shared high part. -/
theorem xor_high_cancel {m a b c : Nat} (hb : b < 2 ^ m) (hc : c < 2 ^ m) :
    (2 ^ m * a + b) ^^^ (2 ^ m * a + c) = b ^^^ c := by
  apply Nat.eq_of_testBit_eq
  intro i
  rw [Nat.testBit_xor, Nat.testBit_mul_pow_two_add _ hb, Nat.testBit_mul_pow_two_add _ hc]
  by_cases h : i < m
  · simp [h, Nat.testBit_xor]
  · have hxc : b ^^^ c < 2 ^ m := Nat.xor_lt_two_pow hb hc
    have hmi : (2 : Nat) ^ m ≤ 2 ^ i := Nat.pow_le_pow_right (by norm_num) (by omega)
    simp [h, Nat.testBit_lt_two_pow (show b ^^^ c < 2 ^ i by omega)]

/-- XOR with a disjoint power of two is addition. -/
theorem two_pow_xor_of_lt {m b : Nat} (hb : b < 2 ^ m) : 2 ^ m ^^^ b = 2 ^ m + b := by
  apply Nat.eq_of_testBit_eq
  intro i
  have h1 : 2 ^ m + b = 2 ^ m * 1 + b := by ring_nf
  rw [Nat.testBit_xor, h1, Nat.testBit_mul_pow_two_add _ hb]
  rcases Nat.lt_trichotomy i m with h | h | h
  · have hpm : (2 ^ m).testBit i = false := by
      rw [Nat.testBit_two_pow]
      simp only [decide_eq_false_iff_not]
      omega
    simp [h, hpm]
  · subst h
    have hbi : b.testBit i = false := Nat.testBit_lt_two_pow hb
    simp [hbi, Nat.testBit_two_pow]
  · have hmi : (2 : Nat) ^ m ≤ 2 ^ i := Nat.pow_le_pow_right (by norm_num) (by omega)
    have hbi : b.testBit i = false := Nat.testBit_lt_two_pow (by omega)
    have hpm : (2 ^ m).testBit i = false := by
      rw [Nat.testBit_two_pow]
      simp only [decide_eq_false_iff_not]
      omega
    have him : ¬ i < m := by omega
    simp only [him, if_false, hpm, hbi, Bool.false_xor]
    rw [(show i - m = (i - m - 1) + 1 by omega), Nat.testBit_succ]
    simp

/-- OR is monotone: the left operand is a lower bound. -/
theorem left_le_or (a b : Nat) : a ≤ a ||| b := by
  apply Nat.le_of_testBit
  intro i h
  rw [Nat.testBit_or, h]
  simp

/-- Odd numbers lose their lowest bit under XOR with 1. -/
theorem odd_xor_one {M : Nat} (hM : M % 2 = 1) : M ^^^ 1 = M - 1 := by
  conv_lhs => rw [(by omega : M = 2 * (M / 2) + 1), (by norm_num : (1 : Nat) = 2 * 0 + 1)]
  rw [xor_bit_decomp _ _ _ _ (by omega) (by omega)]
  simp
  omega

/-- Clearing the lowest set bit (`v ^= 1 << v.trailing_zeros()`)
subtracts `2 ^ trailingZeros v`. -/
theorem xor_lowbit_eq_sub {v : Nat} (hv : v ≠ 0) :
    v ^^^ (1 <<< trailingZeros v) = v - 2 ^ trailingZeros v := by
  obtain ⟨M, hM, hMe⟩ := exists_odd_mul v hv
  set t := trailingZeros v with ht
  have e1 : v = 2 ^ t * M := by rw [hMe]; ring
  have e2 : 1 <<< t = 2 ^ t * 1 := by rw [Nat.shiftLeft_eq]; ring
  rw [e1, e2, xor_mul_pow_two, odd_xor_one hM, Nat.mul_sub_left_distrib, Nat.mul_one]

theorem two_pow_tz_le {v : Nat} (hv : v ≠ 0) : 2 ^ trailingZeros v ≤ v := by
  obtain ⟨M, hM, hMe⟩ := exists_odd_mul v hv
  calc 2 ^ trailingZeros v ≤ M * 2 ^ trailingZeros v :=
        Nat.le_mul_of_pos_left _ (by omega)
  _ = v := hMe.symm

/-- `trailingZeros` adds across multiplication by a power of two. -/
theorem trailingZeros_mul_two_pow {a : Nat} (ha : a ≠ 0) (t : Nat) :
    trailingZeros (a * 2 ^ t) = trailingZeros a + t := by
  obtain ⟨M, hM, hMe⟩ := exists_odd_mul a ha
  conv_lhs => rw [hMe, Nat.mul_assoc, ← pow_add]
  rw [trailingZeros_odd_mul_two_pow M hM]

/-! `BitSetIter` (member extraction) theory. -/

theorem bitIndicesFuel_congr : ∀ {f g v : Nat}, v ≤ f → v ≤ g →
    bitIndicesFuel f v = bitIndicesFuel g v := by
  intro f
  induction f with
  | zero =>
    intro g v hf hg
    interval_cases v
    cases g <;> simp [bitIndicesFuel]
  | succ f ih =>
    intro g v hf hg
    match v, g with
    | 0, 0 => rfl
    | 0, g + 1 => simp [bitIndicesFuel]
    | v + 1, g + 1 =>
      simp only [bitIndicesFuel, if_neg (Nat.succ_ne_zero v)]
      have hx : (v + 1) ^^^ (1 <<< trailingZeros (v + 1)) = v + 1 - 2 ^ trailingZeros (v + 1) :=
        xor_lowbit_eq_sub (Nat.succ_ne_zero v)
      have hle : 2 ^ trailingZeros (v + 1) ≤ v + 1 := two_pow_tz_le (Nat.succ_ne_zero v)
      have hpos : 1 ≤ 2 ^ trailingZeros (v + 1) := Nat.one_le_two_pow
      rw [hx]
      congr 1
      exact ih (by omega) (by omega)

theorem bitIndices_zero : bitIndices 0 = [] := rfl

theorem bitIndices_rec {v : Nat} (hv : v ≠ 0) :
    bitIndices v = trailingZeros v :: bitIndices (v - 2 ^ trailingZeros v) := by
  match v, hv with
  | v + 1, _ =>
    show bitIndicesFuel (v + 1) (v + 1) = _
    simp only [bitIndicesFuel, if_neg (Nat.succ_ne_zero v)]
    have hx : (v + 1) ^^^ (1 <<< trailingZeros (v + 1)) = v + 1 - 2 ^ trailingZeros (v + 1) :=
      xor_lowbit_eq_sub (Nat.succ_ne_zero v)
    have hle : 2 ^ trailingZeros (v + 1) ≤ v + 1 := two_pow_tz_le (Nat.succ_ne_zero v)
    have hpos : 1 ≤ 2 ^ trailingZeros (v + 1) := Nat.one_le_two_pow
    rw [hx]
    congr 1
    exact bitIndicesFuel_congr (by omega) (by omega)

/-- Every yielded index is a set bit's position: `2^i ≤ v`. -/
theorem mem_bitIndices_two_pow_le {v : Nat} :
    ∀ {i : Nat}, i ∈ bitIndices v → 2 ^ i ≤ v := by
  induction v using Nat.strong_induction_on with
  | _ v ih =>
    intro i hi
    rcases Nat.eq_zero_or_pos v with h0 | h0
    · subst h0; simp [bitIndices_zero] at hi
    · rw [bitIndices_rec (by omega)] at hi
      have hle : 2 ^ trailingZeros v ≤ v := two_pow_tz_le (by omega)
      have hpos : 1 ≤ 2 ^ trailingZeros v := Nat.one_le_two_pow
      rcases List.mem_cons.mp hi with h | h
      · subst h; exact hle
      · have := ih (v - 2 ^ trailingZeros v) (by omega) h
        omega

/-- All yielded indices are at least `trailingZeros v`. -/
theorem mem_bitIndices_tz_le {v : Nat} :
    ∀ {i : Nat}, i ∈ bitIndices v → trailingZeros v ≤ i := by
  induction v using Nat.strong_induction_on with
  | _ v ih =>
    intro i hi
    rcases Nat.eq_zero_or_pos v with h0 | h0
    · subst h0; simp [bitIndices_zero] at hi
    · rw [bitIndices_rec (by omega)] at hi
      have hle : 2 ^ trailingZeros v ≤ v := two_pow_tz_le (by omega)
      have hpos : 1 ≤ 2 ^ trailingZeros v := Nat.one_le_two_pow
      rcases List.mem_cons.mp hi with h | h
      · subst h
        exact Nat.le_refl _
      · obtain ⟨M, hM, hMe⟩ := exists_odd_mul v (by omega)
        set t := trailingZeros v with ht
        have hsub : v - 2 ^ t = (M - 1) * 2 ^ t := by
          rw [hMe, Nat.mul_sub_right_distrib, Nat.one_mul]
        rcases Nat.eq_zero_or_pos (M - 1) with hM1 | hM1
        · rw [hsub, hM1, Nat.zero_mul] at h
          simp [bitIndices_zero] at h
        · have htz : t + 1 ≤ trailingZeros (v - 2 ^ t) := by
            rw [hsub, trailingZeros_mul_two_pow (by omega)]
            have : (M - 1) % 2 = 0 := by omega
            have := trailingZeros_even (M - 1) (by omega) this
            omega
          have hrec := ih (v - 2 ^ t) (by omega) h
          omega

/-- The member sequence has one entry per set bit. -/
theorem length_bitIndices (v : Nat) : (bitIndices v).length = countOnes v := by
  induction v using Nat.strong_induction_on with
  | _ v ih =>
    rcases Nat.eq_zero_or_pos v with h0 | h0
    · subst h0; simp [bitIndices_zero, countOnes_zero]
    · rw [bitIndices_rec (by omega)]
      obtain ⟨M, hM, hMe⟩ := exists_odd_mul v (by omega)
      set t := trailingZeros v with ht
      have hle : 2 ^ t ≤ v := two_pow_tz_le (by omega)
      have hpos : 1 ≤ 2 ^ t := Nat.one_le_two_pow
      have hsub : v - 2 ^ t = (M - 1) * 2 ^ t := by
        rw [hMe, Nat.mul_sub_right_distrib, Nat.one_mul]
      have hlen := ih (v - 2 ^ t) (by omega)
      simp only [List.length_cons, hlen]
      have hcv : countOnes v = countOnes M := by
        rw [hMe, (by ring : M * 2 ^ t = 2 ^ t * M), countOnes_mul_pow]
      have hcs : countOnes (v - 2 ^ t) = countOnes (M - 1) := by
        rw [hsub, (by ring : (M - 1) * 2 ^ t = 2 ^ t * (M - 1)), countOnes_mul_pow]
      have hMM : countOnes M = countOnes (M - 1) + 1 := by
        conv_lhs => rw [(by omega : M = 2 * (M / 2) + 1)]
        rw [countOnes_two_mul_add _ _ (by omega)]
        conv_rhs => rw [(by omega : M - 1 = 2 * (M / 2) + 0)]
        rw [countOnes_two_mul_add _ _ (by omega)]
      omega

/-- The member sequence is strictly ascending. -/
theorem bitIndices_pairwise (v : Nat) : (bitIndices v).Pairwise (· < ·) := by
  induction v using Nat.strong_induction_on with
  | _ v ih =>
    rcases Nat.eq_zero_or_pos v with h0 | h0
    · subst h0; simp [bitIndices_zero]
    · rw [bitIndices_rec (by omega)]
      obtain ⟨M, hM, hMe⟩ := exists_odd_mul v (by omega)
      set t := trailingZeros v with ht
      have hle : 2 ^ t ≤ v := two_pow_tz_le (by omega)
      have hpos : 1 ≤ 2 ^ t := Nat.one_le_two_pow
      refine List.Pairwise.cons ?_ (ih (v - 2 ^ t) (by omega))
      intro i hi
      have hsub : v - 2 ^ t = (M - 1) * 2 ^ t := by
        rw [hMe, Nat.mul_sub_right_distrib, Nat.one_mul]
      rcases Nat.eq_zero_or_pos (M - 1) with hM1 | hM1
      · rw [hsub, hM1, Nat.zero_mul] at hi
        simp [bitIndices_zero] at hi
      · have htz : t + 1 ≤ trailingZeros (v - 2 ^ t) := by
          rw [hsub, trailingZeros_mul_two_pow (by omega)]
          have : (M - 1) % 2 = 0 := by omega
          have := trailingZeros_even (M - 1) (by omega) this
          omega
        have := mem_bitIndices_tz_le hi
        omega

theorem bitIndices_nodup (v : Nat) : (bitIndices v).Nodup :=
  (bitIndices_pairwise v).imp Nat.ne_of_lt

/-! Gosper step: run decomposition and successor minimality. -/

/-- Every odd number splits as an even high part followed by a maximal
run of `r ≥ 1` ones. -/
theorem odd_run_decomp : ∀ M : Nat, M % 2 = 1 →
    ∃ H r, H % 2 = 0 ∧ 1 ≤ r ∧ M = H * 2 ^ r + (2 ^ r - 1) := by
  intro M
  induction M using Nat.strong_induction_on with
  | _ M ih =>
    intro hM
    by_cases hq : (M / 2) % 2 = 1
    · obtain ⟨H, r, hH, hr, he⟩ := ih (M / 2) (by omega) hq
      refine ⟨H, r + 1, hH, by omega, ?_⟩
      have h1 : 1 ≤ 2 ^ r := Nat.one_le_two_pow
      have h2 : 2 ^ (r + 1) = 2 * 2 ^ r := by ring
      have h3 : H * 2 ^ (r + 1) = 2 * (H * 2 ^ r) := by ring
      omega
    · refine ⟨M / 2, 1, by omega, Nat.le_refl 1, ?_⟩
      norm_num
      omega

/-- Every nonzero value splits as `H · 2^(t+r) + (2^r − 1) · 2^t` with
`H` even, `r ≥ 1` and `t` its count of trailing zeros: an even high part,
the lowest run of ones, and the trailing zeros. -/
theorem exists_run_decomp (v : Nat) (hv : v ≠ 0) :
    ∃ H r, H % 2 = 0 ∧ 1 ≤ r ∧
      v = H * 2 ^ (trailingZeros v + r) + (2 ^ r - 1) * 2 ^ trailingZeros v := by
  obtain ⟨M, hM, hMe⟩ := exists_odd_mul v hv
  obtain ⟨H, r, hH, hr, he⟩ := odd_run_decomp M hM
  refine ⟨H, r, hH, hr, ?_⟩
  set t := trailingZeros v with ht
  rw [hMe, he, Nat.add_mul]
  congr 1
  rw [pow_add]
  ring

/-- Successor minimality for the Gosper step: any strictly larger value
with the same popcount is at least `(H+1)·2^(t+r) + (2^(r-1) − 1)`. -/
theorem gosper_least {H t r w : Nat} (hH : H % 2 = 0) (hr : 1 ≤ r)
    (hw : H * 2 ^ (t + r) + (2 ^ r - 1) * 2 ^ t < w)
    (hc : countOnes w = countOnes (H * 2 ^ (t + r) + (2 ^ r - 1) * 2 ^ t)) :
    (H + 1) * 2 ^ (t + r) + (2 ^ (r - 1) - 1) ≤ w := by
  have hfac : 2 ^ (t + r) = 2 ^ t * 2 ^ r := pow_add 2 t r
  have h1t : 1 ≤ 2 ^ t := Nat.one_le_two_pow
  have h1r : 1 ≤ 2 ^ r := Nat.one_le_two_pow
  have h1B : 1 ≤ 2 ^ (t + r) := Nat.one_le_two_pow
  have hlow_lt : (2 ^ r - 1) * 2 ^ t < 2 ^ (t + r) := by
    have h2 : (2 ^ r - 1) * 2 ^ t < 2 ^ r * 2 ^ t :=
      (Nat.mul_lt_mul_right (by omega)).mpr (by omega)
    have h3 : 2 ^ r * 2 ^ t = 2 ^ t * 2 ^ r := Nat.mul_comm _ _
    omega
  have hcval : countOnes (H * 2 ^ (t + r) + (2 ^ r - 1) * 2 ^ t) = countOnes H + r := by
    rw [(by ring : H * 2 ^ (t + r) + (2 ^ r - 1) * 2 ^ t
        = 2 ^ (t + r) * H + (2 ^ r - 1) * 2 ^ t),
      countOnes_mul_pow_add _ H _ hlow_lt,
      (by ring : (2 ^ r - 1) * 2 ^ t = 2 ^ t * (2 ^ r - 1)), countOnes_mul_pow,
      countOnes_two_pow_sub_one]
  have hwsplit : 2 ^ (t + r) * (w / 2 ^ (t + r)) + w % 2 ^ (t + r) = w :=
    Nat.div_add_mod w (2 ^ (t + r))
  have hmod_lt : w % 2 ^ (t + r) < 2 ^ (t + r) := Nat.mod_lt _ (by omega)
  have hcw : countOnes w = countOnes (w / 2 ^ (t + r)) + countOnes (w % 2 ^ (t + r)) := by
    conv_lhs => rw [← hwsplit]
    rw [countOnes_mul_pow_add _ _ _ hmod_lt]
  rcases Nat.lt_trichotomy (w / 2 ^ (t + r)) H with hq | hq | hq
  · exfalso
    have m1 : 2 ^ (t + r) * (w / 2 ^ (t + r) + 1) ≤ 2 ^ (t + r) * H :=
      Nat.mul_le_mul_left _ (by omega)
    have m2 : 2 ^ (t + r) * (w / 2 ^ (t + r) + 1)
        = 2 ^ (t + r) * (w / 2 ^ (t + r)) + 2 ^ (t + r) := by ring
    have m3 : H * 2 ^ (t + r) = 2 ^ (t + r) * H := Nat.mul_comm _ _
    omega
  · exfalso
    have m3 : H * 2 ^ (t + r) = 2 ^ (t + r) * H := Nat.mul_comm _ _
    have hlowgt : (2 ^ r - 1) * 2 ^ t < w % 2 ^ (t + r) := by
      rw [hq] at hwsplit
      omega
    have hclow : countOnes (w % 2 ^ (t + r)) = r := by
      rw [hq] at hcw
      omega
    have := le_max_of_countOnes hmod_lt hclow
    omega
  · have e1 : countOnes (H + 1) = countOnes (H / 2) + 1 := by
      conv_lhs => rw [(by omega : H + 1 = 2 * (H / 2) + 1)]
      exact countOnes_two_mul_add _ _ (by omega)
    have e2 : countOnes H = countOnes (H / 2) := by
      conv_lhs => rw [(by omega : H = 2 * (H / 2) + 0)]
      rw [countOnes_two_mul_add _ _ (by omega)]
      omega
    rcases Nat.lt_or_ge (w / 2 ^ (t + r)) (H + 2) with hq2 | hq2
    · have hqe : w / 2 ^ (t + r) = H + 1 := by omega
      have hclow : countOnes (w % 2 ^ (t + r)) = r - 1 := by
        rw [hqe, e1] at hcw
        omega
      have hmin := two_pow_sub_one_le_of_countOnes (w % 2 ^ (t + r))
      rw [hclow] at hmin
      rw [hqe] at hwsplit
      have m4 : 2 ^ (t + r) * (H + 1) = (H + 1) * 2 ^ (t + r) := Nat.mul_comm _ _
      omega
    · have m5 : 2 ^ (t + r) * (H + 2) ≤ 2 ^ (t + r) * (w / 2 ^ (t + r)) :=
        Nat.mul_le_mul_left _ hq2
      have m6 : 2 ^ (t + r) * (H + 2) = (H + 1) * 2 ^ (t + r) + 2 ^ (t + r) := by ring
      have hle1 : 2 ^ (r - 1) ≤ 2 ^ (t + r) := Nat.pow_le_pow_right (by norm_num) (by omega)
      omega

/-- Full characterization of one `next()` step from a valid state: the
yielded value is the current state, and the successor state is the next
larger same-popcount value, or 0 (exhausted) when that value leaves the
low `n` bits. -/
theorem cnext_ok_spec {n val H t r : Nat} (hH : H % 2 = 0) (hr : 1 ≤ r) (hn : n ≤ 63)
    (ht : t = trailingZeros val)
    (hval : val = H * 2 ^ (t + r) + (2 ^ r - 1) * 2 ^ t) (hlt : val < 2 ^ n) :
    cnext ⟨val, n⟩ = .ok (some (val,
      ⟨if (H + 1) * 2 ^ (t + r) < 2 ^ n then (H + 1) * 2 ^ (t + r) + (2 ^ (r - 1) - 1) else 0,
       n⟩)) := by
  have h1t : 1 ≤ 2 ^ t := Nat.one_le_two_pow
  have h1r : 1 ≤ 2 ^ r := Nat.one_le_two_pow
  have h1B : 1 ≤ 2 ^ (t + r) := Nat.one_le_two_pow
  have hfac : 2 ^ (t + r) = 2 ^ t * 2 ^ r := pow_add 2 t r
  have h2r : (2 : Nat) ≤ 2 ^ r := by
    simpa using Nat.pow_le_pow_right (show 1 ≤ 2 by norm_num) hr
  have hlow_le : 2 ^ t ≤ (2 ^ r - 1) * 2 ^ t := Nat.le_mul_of_pos_left _ (by omega)
  have hval0 : val ≠ 0 := by omega
  have hpowle : 2 ^ n ≤ 2 ^ 63 := Nat.pow_le_pow_right (by norm_num) hn
  have hp64 : (2 : Nat) ^ 64 = 2 * 2 ^ 63 := by ring
  have hUdef : U64MAX = 2 ^ 64 - 1 := rfl
  have hvalmax : val ≤ U64MAX := by omega
  have honebit : val &&& (1 + (U64MAX - val)) = 2 ^ t := by
    rw [ht]
    exact one_bit_eq hval0 hvalmax
  have hsum : val + 2 ^ t ≤ U64MAX := by omega
  have hx : val + 2 ^ t = (H + 1) * 2 ^ (t + r) := by
    have h2 : (2 ^ r - 1) * 2 ^ t + 2 ^ t = 2 ^ r * 2 ^ t := by
      rw [Nat.mul_sub_right_distrib]
      have h3 : 2 ^ t ≤ 2 ^ r * 2 ^ t := Nat.le_mul_of_pos_left _ (by omega)
      omega
    have h4 : (H + 1) * 2 ^ (t + r) = H * 2 ^ (t + r) + 2 ^ (t + r) := by ring
    have h5 : 2 ^ r * 2 ^ t = 2 ^ t * 2 ^ r := Nat.mul_comm _ _
    omega
  have hshl : (1 : Nat) <<< n = 2 ^ n := by rw [Nat.shiftLeft_eq, Nat.one_mul]
  unfold cnext
  simp only [if_neg hval0, honebit, hshl]
  rw [if_pos hsum]
  simp only [if_neg (show ¬ 64 ≤ n by omega), hx]
  by_cases hg : (H + 1) * 2 ^ (t + r) < 2 ^ n
  · have htr_lt : t + r < n := by
      have h6 : 2 ^ (t + r) ≤ (H + 1) * 2 ^ (t + r) := Nat.le_mul_of_pos_left _ (by omega)
      have h7 : 2 ^ (t + r) < 2 ^ n := by omega
      exact (Nat.pow_lt_pow_iff_right (by norm_num)).mp h7
    have htz2 : trailingZeros (2 ^ t) + 2 = t + 2 := by rw [trailingZeros_two_pow]
    have hxorval : (H + 1) * 2 ^ (t + r) ^^^ val = (2 ^ (r + 1) - 1) * 2 ^ t := by
      have ex : (H + 1) * 2 ^ (t + r) = 2 ^ (t + r + 1) * (H / 2) + 2 ^ (t + r) := by
        have : 2 ^ (t + r + 1) = 2 ^ (t + r) * 2 := by ring
        rw [this]
        have : H + 1 = 2 * (H / 2) + 1 := by omega
        rw [this]
        ring
      have ev : val = 2 ^ (t + r + 1) * (H / 2) + (2 ^ r - 1) * 2 ^ t := by
        rw [hval]
        have h8 : 2 ^ (t + r + 1) = 2 ^ (t + r) * 2 := by ring
        have h9 : H = 2 * (H / 2) := by omega
        rw [h8]
        conv_lhs => rw [h9]
        ring
      have hb1 : 2 ^ (t + r) < 2 ^ (t + r + 1) := by
        have : 2 ^ (t + r + 1) = 2 ^ (t + r) * 2 := by ring
        omega
      have hb2 : (2 ^ r - 1) * 2 ^ t < 2 ^ (t + r + 1) := by
        have h2 : (2 ^ r - 1) * 2 ^ t < 2 ^ r * 2 ^ t :=
          (Nat.mul_lt_mul_right (by omega)).mpr (by omega)
        have h5 : 2 ^ r * 2 ^ t = 2 ^ t * 2 ^ r := Nat.mul_comm _ _
        omega
      rw [ex, ev, xor_high_cancel hb1 hb2]
      have hlow2 : (2 ^ r - 1) * 2 ^ t < 2 ^ (t + r) := by
        have h2 : (2 ^ r - 1) * 2 ^ t < 2 ^ r * 2 ^ t :=
          (Nat.mul_lt_mul_right (by omega)).mpr (by omega)
        have h5 : 2 ^ r * 2 ^ t = 2 ^ t * 2 ^ r := Nat.mul_comm _ _
        omega
      rw [two_pow_xor_of_lt hlow2]
      have h10 : 2 ^ (r + 1) = 2 ^ r * 2 := by ring
      have h11 : (2 ^ (r + 1) - 1) * 2 ^ t = 2 ^ r * 2 * 2 ^ t - 2 ^ t := by
        rw [← h10, Nat.mul_sub_right_distrib, Nat.one_mul]
      have h12 : 2 ^ r * 2 * 2 ^ t = 2 ^ t * 2 ^ r + 2 ^ t * 2 ^ r := by ring
      have h13 : (2 ^ r - 1) * 2 ^ t = 2 ^ r * 2 ^ t - 2 ^ t := by
        rw [Nat.mul_sub_right_distrib, Nat.one_mul]
      have h5 : 2 ^ r * 2 ^ t = 2 ^ t * 2 ^ r := Nat.mul_comm _ _
      omega
    have hshift : ((2 ^ (r + 1) - 1) * 2 ^ t) >>> (t + 2) = 2 ^ (r - 1) - 1 := by
      rw [Nat.shiftRight_eq_div_pow]
      have h14 : 2 ^ (t + 2) = 2 ^ t * 4 := by rw [pow_add]; norm_num
      have h15 : (2 ^ (r + 1) - 1) * 2 ^ t = 2 ^ t * (2 ^ (r + 1) - 1) := Nat.mul_comm _ _
      rw [h14, h15, Nat.mul_div_mul_left _ _ (by omega)]
      have h16 : r + 1 = (r - 1) + 2 := by omega
      have h17 : 2 ^ (r + 1) = 2 ^ (r - 1) * 4 := by rw [h16, pow_add]; norm_num
      omega
    have hor : (H + 1) * 2 ^ (t + r) ||| (2 ^ (r - 1) - 1)
        = (H + 1) * 2 ^ (t + r) + (2 ^ (r - 1) - 1) := by
      have h18 : 2 ^ (r - 1) - 1 < 2 ^ (t + r) := by
        have : 2 ^ (r - 1) ≤ 2 ^ (t + r) := Nat.pow_le_pow_right (by norm_num) (by omega)
        omega
      have hthis := Nat.mul_add_lt_is_or h18 (H + 1)
      rw [Nat.mul_comm (2 ^ (t + r)) (H + 1)] at hthis
      exact hthis.symm
    rw [if_pos hg, if_neg (show ¬ 64 ≤ trailingZeros (2 ^ t) + 2 by rw [htz2]; omega)]
    rw [htz2, hxorval, hshift, hor, if_pos hg]
  · rw [if_neg hg, if_neg hg]

/-! Running the iterator to exhaustion. -/

/-- Termination measure for iterating `cnext`: the state strictly
increases (or the sequence ends at 0). -/
def iterMeasure (it : CombinationIter) : Nat :=
  if it.next_val = 0 then 0 else 2 ^ 64 - it.next_val + 1

/-- Exhaustive case analysis of one `cnext` step on an arbitrary state. -/
theorem cnext_shape (it : CombinationIter) :
    (it.next_val = 0 ∧ cnext it = .ok none) ∨
    (∃ e, cnext it = .error e) ∨
    (it.next_val ≠ 0 ∧ ∃ nv', cnext it = .ok (some (it.next_val, ⟨nv', it.n⟩)) ∧
      (nv' = 0 ∨ (it.next_val < nv' ∧ it.next_val < 2 ^ 64 ∧ nv' < 2 ^ 64))) := by
  by_cases h0 : it.next_val = 0
  · left
    refine ⟨h0, ?_⟩
    unfold cnext
    rw [if_pos h0]
  · right
    set val := it.next_val with hvd
    by_cases hck : val + (val &&& (1 + (U64MAX - val))) ≤ U64MAX
    · by_cases hn : 64 ≤ it.n
      · refine Or.inl ⟨"attempt to shift left with overflow", ?_⟩
        unfold cnext
        rw [if_neg h0]
        simp only [← hvd, if_pos hck, if_pos hn]
      · by_cases hg : val + (val &&& (1 + (U64MAX - val))) < 1 <<< it.n
        · by_cases hs : 64 ≤ trailingZeros (val &&& (1 + (U64MAX - val))) + 2
          · refine Or.inl ⟨"attempt to shift right with overflow", ?_⟩
            unfold cnext
            rw [if_neg h0]
            simp only [← hvd, if_pos hck, if_neg hn, if_pos hg, if_pos hs]
          · right
            have hvle : val ≤ U64MAX := by omega
            have hU : U64MAX = 2 ^ 64 - 1 := rfl
            have h164 : (1 : Nat) ≤ 2 ^ 64 := Nat.one_le_two_pow
            have hval64 : val < 2 ^ 64 := by omega
            have hob : val &&& (1 + (U64MAX - val)) = 2 ^ trailingZeros val :=
              one_bit_eq h0 hvle
            have hob1 : 1 ≤ val &&& (1 + (U64MAX - val)) := by
              rw [hob]
              exact Nat.one_le_two_pow
            have hx64 : val + (val &&& (1 + (U64MAX - val))) < 2 ^ 64 := by omega
            have hxor : (val + (val &&& (1 + (U64MAX - val)))) ^^^ val < 2 ^ 64 :=
              Nat.xor_lt_two_pow hx64 hval64
            have hsh : ((val + (val &&& (1 + (U64MAX - val)))) ^^^ val)
                >>> (trailingZeros (val &&& (1 + (U64MAX - val))) + 2) < 2 ^ 64 := by
              rw [Nat.shiftRight_eq_div_pow]
              have := Nat.div_le_self ((val + (val &&& (1 + (U64MAX - val)))) ^^^ val)
                (2 ^ (trailingZeros (val &&& (1 + (U64MAX - val))) + 2))
              omega
            have hor64 : (val + (val &&& (1 + (U64MAX - val))))
                ||| (((val + (val &&& (1 + (U64MAX - val)))) ^^^ val)
                  >>> (trailingZeros (val &&& (1 + (U64MAX - val))) + 2)) < 2 ^ 64 :=
              Nat.or_lt_two_pow hx64 hsh
            have horgt : val < (val + (val &&& (1 + (U64MAX - val))))
                ||| (((val + (val &&& (1 + (U64MAX - val)))) ^^^ val)
                  >>> (trailingZeros (val &&& (1 + (U64MAX - val))) + 2)) := by
              have := left_le_or (val + (val &&& (1 + (U64MAX - val))))
                (((val + (val &&& (1 + (U64MAX - val)))) ^^^ val)
                  >>> (trailingZeros (val &&& (1 + (U64MAX - val))) + 2))
              omega
            have hstep : cnext it = .ok (some (val,
                ⟨(val + (val &&& (1 + (U64MAX - val))))
                  ||| (((val + (val &&& (1 + (U64MAX - val)))) ^^^ val)
                    >>> (trailingZeros (val &&& (1 + (U64MAX - val))) + 2)), it.n⟩)) := by
              unfold cnext
              rw [if_neg h0]
              simp only [← hvd, if_pos hck, if_neg hn, if_pos hg, if_neg hs]
            refine ⟨h0, ?_⟩
            refine ⟨_, hstep, ?_⟩
            exact Or.inr ⟨horgt, hval64, hor64⟩
        · refine Or.inr ⟨h0, 0, ?_, Or.inl rfl⟩
          unfold cnext
          rw [if_neg h0]
          simp only [← hvd, if_pos hck, if_neg hn, if_neg hg]
    · refine Or.inr ⟨h0, 0, ?_, Or.inl rfl⟩
      unfold cnext
      rw [if_neg h0]
      simp only [← hvd, if_neg hck]

theorem cnext_measure_lt {it it' : CombinationIter} {v : Nat}
    (h : cnext it = .ok (some (v, it'))) : iterMeasure it' < iterMeasure it := by
  rcases cnext_shape it with ⟨h0, he⟩ | ⟨e, he⟩ | ⟨h0, nv', he, hcase⟩
  · rw [he] at h
    exact absurd h (by simp)
  · rw [he] at h
    exact absurd h (by simp)
  · rw [he] at h
    simp only [Except.ok.injEq, Option.some.injEq, Prod.mk.injEq] at h
    obtain ⟨hv, hit⟩ := h
    have hm1 : iterMeasure ⟨nv', it.n⟩ = if nv' = 0 then 0 else 2 ^ 64 - nv' + 1 := rfl
    have hm2 : iterMeasure it = 2 ^ 64 - it.next_val + 1 := by
      unfold iterMeasure
      rw [if_neg h0]
    rw [← hit, hm1, hm2]
    rcases hcase with h1 | ⟨h1, h2, h3⟩
    · rw [if_pos h1]
      omega
    · rw [if_neg (by omega)]
      omega

/-- Rust `Iterator::collect()` for `CombinationIter`: repeatedly call
`next` until `None`, yielding the values in order (an abort propagates). -/
def collect (it : CombinationIter) : Except String (List Nat) :=
  match h : cnext it with
  | .error e => .error e
  | .ok none => .ok []
  | .ok (some (v, it')) =>
    have : iterMeasure it' < iterMeasure it := cnext_measure_lt h
    (collect it').map (v :: ·)
termination_by iterMeasure it

theorem collect_error {it : CombinationIter} {e : String} (h : cnext it = .error e) :
    collect it = .error e := by
  unfold collect
  split
  · next e' he => rw [h] at he; cases he; rfl
  · next he => rw [h] at he; cases he
  · next v it' he => rw [h] at he; cases he

theorem collect_none {it : CombinationIter} (h : cnext it = .ok none) :
    collect it = .ok [] := by
  unfold collect
  split
  · next e' he => rw [h] at he; cases he
  · next he => rfl
  · next v it' he => rw [h] at he; cases he

theorem collect_some {it : CombinationIter} {v : Nat} {it' : CombinationIter}
    (h : cnext it = .ok (some (v, it'))) :
    collect it = (collect it').map (v :: ·) := by
  conv_lhs => unfold collect
  split
  · next e' he => rw [h] at he; cases he
  · next he => rw [h] at he; cases he
  · next v' it'' he =>
    rw [h] at he
    cases he
    rfl

/-- A successful fuelled run agrees with `collect`. -/
theorem collectFuel_ok : ∀ {fuel : Nat} {it : CombinationIter} {l : List Nat},
    collectFuel fuel it = .ok l → collect it = .ok l := by
  intro fuel
  induction fuel with
  | zero => intro it l h; cases h
  | succ fuel ih =>
    intro it l h
    cases hc : cnext it with
    | error e =>
      have h2 : (Except.error e : Except String (List Nat)) = Except.ok l := by
        rw [← h, collectFuel, hc]
      cases h2
    | ok o =>
      cases o with
      | none =>
        have h2 : (Except.ok [] : Except String (List Nat)) = Except.ok l := by
          rw [← h, collectFuel, hc]
        cases h2
        exact collect_none hc
      | some p =>
        obtain ⟨v, it'⟩ := p
        have h2 : Except.map (v :: ·) (collectFuel fuel it') = Except.ok l := by
          rw [← h, collectFuel, hc]
        cases hr : collectFuel fuel it' with
        | error e => rw [hr] at h2; cases h2
        | ok l' =>
          rw [hr] at h2
          simp only [Except.map] at h2
          cases h2
          rw [collect_some hc, ih hr]
          rfl

/-- A fuelled run that aborts with the program's own message (not fuel
exhaustion) agrees with `collect`. -/
theorem collectFuel_error : ∀ {fuel : Nat} {it : CombinationIter} {e : String},
    collectFuel fuel it = .error e → e ≠ "out of fuel" → collect it = .error e := by
  intro fuel
  induction fuel with
  | zero =>
    intro it e h hne
    cases h
    exact absurd rfl hne
  | succ fuel ih =>
    intro it e h hne
    cases hc : cnext it with
    | error e' =>
      have h2 : (Except.error e' : Except String (List Nat)) = Except.error e := by
        rw [← h, collectFuel, hc]
      cases h2
      exact collect_error hc
    | ok o =>
      cases o with
      | none =>
        have h2 : (Except.ok [] : Except String (List Nat)) = Except.error e := by
          rw [← h, collectFuel, hc]
        cases h2
      | some p =>
        obtain ⟨v, it'⟩ := p
        have h2 : Except.map (v :: ·) (collectFuel fuel it') = Except.error e := by
          rw [← h, collectFuel, hc]
        cases hr : collectFuel fuel it' with
        | error e' =>
          rw [hr] at h2
          simp only [Except.map] at h2
          cases h2
          rw [collect_some hc, ih hr hne]
          rfl
        | ok l' =>
          rw [hr] at h2
          simp only [Except.map] at h2
          cases h2

/-! Reference enumeration: all values in `[val, val + fuel)` with popcount
`k`, in increasing order. -/

def refListAux (k : Nat) : Nat → Nat → List Nat
  | _, 0 => []
  | val, fuel + 1 => (if countOnes val = k then [val] else []) ++ refListAux k (val + 1) fuel

/-- All `k`-subsets of `{0, …, n−1}` as bitmasks, in increasing numeric
order. -/
def combList (n k : Nat) : List Nat := refListAux k 0 (2 ^ n)

theorem refListAux_append (k : Nat) : ∀ (a : Nat) {val : Nat} (b : Nat),
    refListAux k val (a + b) = refListAux k val a ++ refListAux k (val + a) b := by
  intro a
  induction a with
  | zero => intro val b; simp [refListAux]
  | succ a ih =>
    intro val b
    have h1 : a + 1 + b = (a + b) + 1 := by omega
    rw [h1]
    show (if countOnes val = k then [val] else []) ++ refListAux k (val + 1) (a + b) = _
    rw [ih]
    show _ = ((if countOnes val = k then [val] else []) ++ refListAux k (val + 1) a)
      ++ refListAux k (val + (a + 1)) b
    rw [List.append_assoc]
    have h2 : val + 1 + a = val + (a + 1) := by omega
    rw [h2]

theorem mem_refListAux {k : Nat} : ∀ {fuel val w : Nat},
    w ∈ refListAux k val fuel ↔ countOnes w = k ∧ val ≤ w ∧ w < val + fuel := by
  intro fuel
  induction fuel with
  | zero =>
    intro val w
    simp only [refListAux, List.not_mem_nil, false_iff]
    omega
  | succ fuel ih =>
    intro val w
    show w ∈ (if countOnes val = k then [val] else []) ++ refListAux k (val + 1) fuel ↔ _
    by_cases h : countOnes val = k
    · rw [if_pos h, List.singleton_append, List.mem_cons, ih]
      constructor
      · rintro (he | ⟨hc, h1, h2⟩)
        · subst he
          exact ⟨h, Nat.le_refl _, by omega⟩
        · exact ⟨hc, by omega, by omega⟩
      · rintro ⟨hc, h1, h2⟩
        rcases Nat.eq_or_lt_of_le h1 with he | hlt
        · exact Or.inl he.symm
        · exact Or.inr ⟨hc, by omega, by omega⟩
    · rw [if_neg h, List.nil_append, ih]
      constructor
      · rintro ⟨hc, h1, h2⟩
        exact ⟨hc, by omega, by omega⟩
      · rintro ⟨hc, h1, h2⟩
        have hne : w ≠ val := fun he => h (he ▸ hc)
        exact ⟨hc, by omega, by omega⟩

theorem refListAux_eq_nil {k fuel val : Nat}
    (h : ∀ w, val ≤ w → w < val + fuel → countOnes w ≠ k) :
    refListAux k val fuel = [] := by
  rw [List.eq_nil_iff_forall_not_mem]
  intro w hw
  rw [mem_refListAux] at hw
  exact h w hw.2.1 hw.2.2 hw.1

theorem refListAux_cons {k fuel val : Nat} (h : countOnes val = k) :
    refListAux k val (fuel + 1) = val :: refListAux k (val + 1) fuel := by
  show (if countOnes val = k then [val] else []) ++ _ = _
  rw [if_pos h]
  rfl

/-- Skip an interval free of popcount-`k` values. -/
theorem refListAux_skip {k fuel val val' : Nat}
    (hle : val ≤ val') (hle2 : val' ≤ val + fuel)
    (h : ∀ w, val ≤ w → w < val' → countOnes w ≠ k) :
    refListAux k val fuel = refListAux k val' (val + fuel - val') := by
  have h1 : refListAux k val fuel = refListAux k val ((val' - val) + (val + fuel - val')) := by
    congr 1
    omega
  rw [h1, refListAux_append]
  rw [refListAux_eq_nil (by intro w hw1 hw2; exact h w hw1 (by omega))]
  rw [List.nil_append]
  have h2 : val + (val' - val) = val' := by omega
  rw [h2]

/-- Main iterator lemma: from any in-range state `val` with popcount `k`,
`collect` succeeds and yields exactly the popcount-`k` values in
`[val, 2^n)` in increasing order. -/
theorem collect_spec : ∀ (m : Nat) {n k val : Nat}, 2 ^ n - val ≤ m → 1 ≤ k → n ≤ 63 →
    countOnes val = k → val < 2 ^ n →
    collect ⟨val, n⟩ = .ok (refListAux k val (2 ^ n - val)) := by
  intro m
  induction m with
  | zero =>
    intro n k val hm hk hn hc hv
    omega
  | succ m ih =>
    intro n k val hm hk hn hc hv
    have hval0 : val ≠ 0 := by
      intro he
      subst he
      rw [countOnes_zero] at hc
      omega
    obtain ⟨H, r, hH, hr, hdec⟩ := exists_run_decomp val hval0
    set t := trailingZeros val with ht
    have h1t : 1 ≤ 2 ^ t := Nat.one_le_two_pow
    have h1r : 1 ≤ 2 ^ r := Nat.one_le_two_pow
    have h1B : 1 ≤ 2 ^ (t + r) := Nat.one_le_two_pow
    have h2r : (2 : Nat) ≤ 2 ^ r := by
      simpa using Nat.pow_le_pow_right (show 1 ≤ 2 by norm_num) hr
    have hfac : 2 ^ (t + r) = 2 ^ t * 2 ^ r := pow_add 2 t r
    have hstep := cnext_ok_spec hH hr hn ht hdec hv
    have hlow_lt : (2 ^ r - 1) * 2 ^ t < 2 ^ (t + r) := by
      have h2 : (2 ^ r - 1) * 2 ^ t < 2 ^ r * 2 ^ t :=
        (Nat.mul_lt_mul_right (by omega)).mpr (by omega)
      have h5 : 2 ^ r * 2 ^ t = 2 ^ t * 2 ^ r := Nat.mul_comm _ _
      omega
    have hxval : val + 2 ^ t = (H + 1) * 2 ^ (t + r) := by
      have h2 : (2 ^ r - 1) * 2 ^ t + 2 ^ t = 2 ^ r * 2 ^ t := by
        rw [Nat.mul_sub_right_distrib]
        have h3 : 2 ^ t ≤ 2 ^ r * 2 ^ t := Nat.le_mul_of_pos_left _ (by omega)
        omega
      have h4 : (H + 1) * 2 ^ (t + r) = H * 2 ^ (t + r) + 2 ^ (t + r) := by ring
      have h5 : 2 ^ r * 2 ^ t = 2 ^ t * 2 ^ r := Nat.mul_comm _ _
      omega
    have hgap : ∀ w, val < w → countOnes w = k →
        (H + 1) * 2 ^ (t + r) + (2 ^ (r - 1) - 1) ≤ w := by
      intro w hw hcw
      apply gosper_least hH hr
      · rw [← hdec]
        exact hw
      · rw [← hdec, hcw, hc]
    by_cases hg : (H + 1) * 2 ^ (t + r) < 2 ^ n
    · rw [if_pos hg] at hstep
      set nv := (H + 1) * 2 ^ (t + r) + (2 ^ (r - 1) - 1) with hnv
      have hr1 : 2 ^ (r - 1) - 1 < 2 ^ (t + r) := by
        have : 2 ^ (r - 1) ≤ 2 ^ (t + r) := Nat.pow_le_pow_right (by norm_num) (by omega)
        omega
      have hcval : countOnes val = countOnes H + r := by
        rw [hdec, (by ring : H * 2 ^ (t + r) + (2 ^ r - 1) * 2 ^ t
            = 2 ^ (t + r) * H + (2 ^ r - 1) * 2 ^ t),
          countOnes_mul_pow_add _ H _ hlow_lt,
          (by ring : (2 ^ r - 1) * 2 ^ t = 2 ^ t * (2 ^ r - 1)), countOnes_mul_pow,
          countOnes_two_pow_sub_one]
      have hnvc : countOnes nv = k := by
        rw [hnv, (by ring : (H + 1) * 2 ^ (t + r) + (2 ^ (r - 1) - 1)
            = 2 ^ (t + r) * (H + 1) + (2 ^ (r - 1) - 1)),
          countOnes_mul_pow_add _ _ _ hr1, countOnes_two_pow_sub_one]
        have e1 : countOnes (H + 1) = countOnes (H / 2) + 1 := by
          conv_lhs => rw [(by omega : H + 1 = 2 * (H / 2) + 1)]
          exact countOnes_two_mul_add _ _ (by omega)
        have e2 : countOnes H = countOnes (H / 2) := by
          conv_lhs => rw [(by omega : H = 2 * (H / 2) + 0)]
          rw [countOnes_two_mul_add _ _ (by omega)]
          omega
        omega
      have htr_lt : t + r < n := by
        have h6 : 2 ^ (t + r) ≤ (H + 1) * 2 ^ (t + r) := Nat.le_mul_of_pos_left _ (by omega)
        have h7 : 2 ^ (t + r) < 2 ^ n := by omega
        exact (Nat.pow_lt_pow_iff_right (by norm_num)).mp h7
      have hnv_lt : nv < 2 ^ n := by
        have hq : H + 1 < 2 ^ (n - (t + r)) := by
          by_contra hq
          push_neg at hq
          have h8 : 2 ^ (n - (t + r)) * 2 ^ (t + r) ≤ (H + 1) * 2 ^ (t + r) :=
            Nat.mul_le_mul_right _ hq
          rw [← pow_add] at h8
          have he : n - (t + r) + (t + r) = n := by omega
          rw [he] at h8
          omega
        have h8 : (H + 1) * 2 ^ (t + r) ≤ (2 ^ (n - (t + r)) - 1) * 2 ^ (t + r) :=
          Nat.mul_le_mul_right _ (by omega)
        have h9 : (2 ^ (n - (t + r)) - 1) * 2 ^ (t + r) = 2 ^ n - 2 ^ (t + r) := by
          rw [Nat.mul_sub_right_distrib, Nat.one_mul, ← pow_add]
          have he : n - (t + r) + (t + r) = n := by omega
          rw [he]
        omega
      have hval_lt_nv : val < nv := by omega
      rw [collect_some hstep, ih (by omega) hk hn hnvc hnv_lt]
      have hfuel : 2 ^ n - val = (2 ^ n - val - 1) + 1 := by omega
      rw [hfuel, refListAux_cons hc]
      have hskip : refListAux k (val + 1) (2 ^ n - val - 1) = refListAux k nv (2 ^ n - nv) := by
        have hs := refListAux_skip
          (show val + 1 ≤ nv by omega)
          (show nv ≤ (val + 1) + (2 ^ n - val - 1) by omega)
          (show ∀ w, val + 1 ≤ w → w < nv → countOnes w ≠ k by
            intro w hw1 hw2 hcw
            have := hgap w (by omega) hcw
            omega)
        rw [hs]
        have he : (val + 1) + (2 ^ n - val - 1) - nv = 2 ^ n - nv := by omega
        rw [he]
      rw [hskip]
      rfl
    · rw [if_neg hg] at hstep
      have hzero : cnext ⟨0, n⟩ = .ok none := by
        unfold cnext
        rw [if_pos rfl]
      rw [collect_some hstep, collect_none hzero]
      have hfuel : 2 ^ n - val = (2 ^ n - val - 1) + 1 := by omega
      rw [hfuel, refListAux_cons hc]
      have hnil : refListAux k (val + 1) (2 ^ n - val - 1) = [] := by
        apply refListAux_eq_nil
        intro w hw1 hw2 hcw
        have h6 := hgap w (by omega) hcw
        have h7 : 2 ^ n ≤ (H + 1) * 2 ^ (t + r) := by omega
        omega
      rw [hnil]
      rfl

/-- `CombinationIter::new` on a valid `(n, k)` yields the initial state
`2^k − 1` (the `k` lowest bits). -/
theorem new_ok {n k : Nat} (h1 : 1 ≤ k) (h2 : k ≤ n) (h3 : n ≤ 63) :
    CombinationIter.new n k = .ok ⟨2 ^ k - 1, n⟩ := by
  unfold CombinationIter.new
  rw [if_neg (show ¬ ¬ n ≥ k by omega), if_neg (show ¬ ¬ n ≤ 65 by omega),
    if_neg (show ¬ ¬ k > 0 by omega), if_neg (show ¬ 64 ≤ k by omega),
    Nat.shiftLeft_eq, Nat.one_mul]

theorem combList_eq_from (n k : Nat) (h1 : 1 ≤ k) (h2 : k ≤ n) :
    combList n k = refListAux k (2 ^ k - 1) (2 ^ n - (2 ^ k - 1)) := by
  unfold combList
  have hpow : 2 ^ k ≤ 2 ^ n := Nat.pow_le_pow_right (by norm_num) h2
  have h1k : 1 ≤ 2 ^ k := Nat.one_le_two_pow
  have hs := refListAux_skip
    (show 0 ≤ 2 ^ k - 1 by omega)
    (show 2 ^ k - 1 ≤ 0 + 2 ^ n by omega)
    (show ∀ w, 0 ≤ w → w < 2 ^ k - 1 → countOnes w ≠ k by
      intro w _ hw hcw
      have := two_pow_sub_one_le_of_countOnes w
      rw [hcw] at this
      omega)
  rw [hs]
  have he : 0 + 2 ^ n - (2 ^ k - 1) = 2 ^ n - (2 ^ k - 1) := by omega
  rw [he]

/-- The enumerator on a valid `(n, k)` with `n ≤ 63` yields exactly the
increasing sequence of all popcount-`k` bitmasks below `2^n`. -/
theorem iter_spec (n k : Nat) (h1 : 1 ≤ k) (h2 : k ≤ n) (h3 : n ≤ 63) :
    CombinationIter.new n k = .ok ⟨2 ^ k - 1, n⟩ ∧
    collect ⟨2 ^ k - 1, n⟩ = .ok (combList n k) := by
  refine ⟨new_ok h1 h2 h3, ?_⟩
  have hc : countOnes (2 ^ k - 1) = k := countOnes_two_pow_sub_one k
  have hpow : 2 ^ k ≤ 2 ^ n := Nat.pow_le_pow_right (by norm_num) h2
  have h1k : 1 ≤ 2 ^ k := Nat.one_le_two_pow
  rw [collect_spec (2 ^ n) (by omega) h1 h3 hc (by omega), combList_eq_from n k h1 h2]

/-- Upper half of the range shifts down: popcounts drop by the top bit. -/
theorem refListAux_shift_upper : ∀ (fuel k val n : Nat), val + fuel ≤ 2 ^ n → 1 ≤ k →
    refListAux k (2 ^ n + val) fuel = (refListAux (k - 1) val fuel).map (2 ^ n + ·) := by
  intro fuel
  induction fuel with
  | zero => intro k val n h hk; rfl
  | succ fuel ih =>
    intro k val n h hk
    have hvlt : val < 2 ^ n := by omega
    have hcnt : countOnes (2 ^ n + val) = 1 + countOnes val := by
      rw [(by ring : 2 ^ n + val = 2 ^ n * 1 + val), countOnes_mul_pow_add _ _ _ hvlt]
      rfl
    show (if countOnes (2 ^ n + val) = k then [2 ^ n + val] else [])
        ++ refListAux k (2 ^ n + val + 1) fuel = _
    have hstep : 2 ^ n + val + 1 = 2 ^ n + (val + 1) := by omega
    rw [hstep, ih k (val + 1) n (by omega) hk]
    show _ = ((if countOnes val = k - 1 then [val] else [])
        ++ refListAux (k - 1) (val + 1) fuel).map (2 ^ n + ·)
    rw [List.map_append]
    by_cases hco : countOnes val = k - 1
    · rw [if_pos hco, if_pos (by omega)]
      rfl
    · rw [if_neg hco, if_neg (by omega)]
      rfl

/-- No value in the upper half has popcount 0. -/
theorem refListAux_upper_zero (fuel val n : Nat) (h : val + fuel ≤ 2 ^ n) :
    refListAux 0 (2 ^ n + val) fuel = [] := by
  apply refListAux_eq_nil
  intro w hw1 hw2
  have hsplit : w = 2 ^ n * 1 + (w - 2 ^ n) := by omega
  have hlt : w - 2 ^ n < 2 ^ n := by omega
  rw [hsplit, countOnes_mul_pow_add _ _ _ hlt]
  have : countOnes 1 = 1 := rfl
  omega

/-- The enumeration has exactly `C(n, k)` entries. -/
theorem combList_length : ∀ n k, (combList n k).length = Nat.choose n k := by
  intro n
  induction n with
  | zero =>
    intro k
    cases k with
    | zero => rfl
    | succ k => rfl
  | succ n ih =>
    intro k
    have hsplit : (2 : Nat) ^ (n + 1) = 2 ^ n + 2 ^ n := by ring
    unfold combList
    rw [hsplit, refListAux_append, List.length_append]
    have hfirst : refListAux k 0 (2 ^ n) = combList n k := rfl
    rw [hfirst, ih k]
    cases k with
    | zero =>
      rw [show (0 : Nat) + 2 ^ n = 2 ^ n + 0 by omega,
        refListAux_upper_zero (2 ^ n) 0 n (by omega)]
      simp
    | succ k =>
      rw [show (0 : Nat) + 2 ^ n = 2 ^ n + 0 by omega,
        refListAux_shift_upper (2 ^ n) (k + 1) 0 n (by omega) (by omega),
        List.length_map]
      have h2 : refListAux (k + 1 - 1) 0 (2 ^ n) = combList n k := rfl
      rw [h2, ih k]
      have hcs : (n + 1).choose (k + 1) = n.choose k + n.choose (k + 1) :=
        Nat.choose_succ_succ n k
      omega

theorem refListAux_pairwise (k : Nat) : ∀ (fuel val : Nat),
    (refListAux k val fuel).Pairwise (· < ·) := by
  intro fuel
  induction fuel with
  | zero => intro val; exact List.Pairwise.nil
  | succ fuel ih =>
    intro val
    show ((if countOnes val = k then [val] else [])
        ++ refListAux k (val + 1) fuel).Pairwise (· < ·)
    by_cases h : countOnes val = k
    · rw [if_pos h, List.singleton_append]
      refine List.Pairwise.cons ?_ (ih (val + 1))
      intro w hw
      have := (mem_refListAux.mp hw).2.1
      omega
    · rw [if_neg h, List.nil_append]
      exact ih (val + 1)

theorem combList_nodup (n k : Nat) : (combList n k).Nodup :=
  ((refListAux_pairwise k (2 ^ n) 0)).imp Nat.ne_of_lt

/-! `remove_impossible_universes`: the `swap_remove` scan. -/

/-- `Vec::swap_remove(i)`: replace index `i` with the last element and
pop the last element. -/
def swapRemove (l : List Nat) (i : Nat) : List Nat :=
  (l.set i (l.getLastD 0)).dropLast

theorem swapRemove_length {l : List Nat} {i : Nat} :
    (swapRemove l i).length = l.length - 1 := by
  unfold swapRemove
  rw [List.length_dropLast, List.length_set]

/-- The scanning while-loop of `remove_impossible_universes`: starting at
index `i`, drop (via `swap_remove`) every remaining universe containing
the pair. -/
def removeLoop (pair i : Nat) (l : List Nat) : List Nat :=
  if h : i < l.length then
    if l.getD i 0 &&& pair = pair then
      have hlen : (swapRemove l i).length - i < l.length - i := by
        rw [swapRemove_length]
        omega
      removeLoop pair i (swapRemove l i)
    else
      have hlen : l.length - (i + 1) < l.length - i := by omega
      removeLoop pair (i + 1) l
  else l
termination_by l.length - i

/-- `remove_impossible_universes(pair, universes)`: remove every universe
in which both of the pair's batteries are functional
(`universes[i] & pair == pair`), scanning with `swap_remove`. -/
def remove_impossible_universes (pair : Nat) (universes : List Nat) : List Nat :=
  removeLoop pair 0 universes

theorem removeLoop_done {p i : Nat} {l : List Nat} (h : ¬ i < l.length) :
    removeLoop p i l = l := by
  unfold removeLoop
  rw [dif_neg h]

theorem removeLoop_hit {p i : Nat} {l : List Nat} (h : i < l.length)
    (hp : l.getD i 0 &&& p = p) :
    removeLoop p i l = removeLoop p i (swapRemove l i) := by
  conv_lhs => unfold removeLoop
  rw [dif_pos h, if_pos hp]

theorem removeLoop_miss {p i : Nat} {l : List Nat} (h : i < l.length)
    (hp : ¬ (l.getD i 0 &&& p = p)) :
    removeLoop p i l = removeLoop p (i + 1) l := by
  conv_lhs => unfold removeLoop
  rw [dif_pos h, if_neg hp]

/-- Fuelled twin of `removeLoop`, for concrete evaluation. -/
def removeLoopFuel : Nat → Nat → Nat → List Nat → Option (List Nat)
  | 0, _, _, _ => none
  | fuel + 1, pair, i, l =>
    if i < l.length then
      if l.getD i 0 &&& pair = pair then removeLoopFuel fuel pair i (swapRemove l i)
      else removeLoopFuel fuel pair (i + 1) l
    else some l

theorem removeLoopFuel_enough : ∀ (m : Nat) {p i : Nat} {l : List Nat}, l.length - i < m →
    removeLoopFuel m p i l = some (removeLoop p i l) := by
  intro m
  induction m with
  | zero => intro p i l h; omega
  | succ m ih =>
    intro p i l h
    by_cases hi : i < l.length
    · by_cases hp : l.getD i 0 &&& p = p
      · rw [removeLoopFuel, if_pos hi, if_pos hp, removeLoop_hit hi hp]
        exact ih (by rw [swapRemove_length]; omega)
      · rw [removeLoopFuel, if_pos hi, if_neg hp, removeLoop_miss hi hp]
        exact ih (by omega)
    · rw [removeLoopFuel, if_neg hi, removeLoop_done hi]

/-- Executable form: `removeLoop` with provably sufficient fuel. -/
def removeExec (pair : Nat) (l : List Nat) : List Nat :=
  (removeLoopFuel (l.length + 1) pair 0 l).getD []

theorem remove_eq_exec (pair : Nat) (l : List Nat) :
    remove_impossible_universes pair l = removeExec pair l := by
  unfold remove_impossible_universes removeExec
  rw [removeLoopFuel_enough (l.length + 1) (by omega)]
  rfl

theorem swapRemove_concat_nil (T : List Nat) (a : Nat) :
    swapRemove (T ++ [a]) T.length = T := by
  unfold swapRemove
  rw [List.getLastD_concat, List.set_append_right _ _ (Nat.le_refl _), Nat.sub_self,
    List.set_cons_zero]
  exact List.dropLast_concat

theorem swapRemove_mid (T R : List Nat) (a z : Nat) :
    swapRemove (T ++ a :: (R ++ [z])) T.length = T ++ z :: R := by
  unfold swapRemove
  have hg : (T ++ a :: (R ++ [z])).getLastD 0 = z := by
    rw [show T ++ a :: (R ++ [z]) = (T ++ a :: R) ++ [z] by simp]
    exact List.getLastD_concat _ _ _
  rw [hg, List.set_append_right _ _ (Nat.le_refl _), Nat.sub_self, List.set_cons_zero]
  rw [show T ++ z :: (R ++ [z]) = (T ++ z :: R) ++ [z] by simp]
  exact List.dropLast_concat

theorem swapRemove_take {l : List Nat} {i : Nat} (h : i < l.length) :
    (swapRemove l i).take i = l.take i := by
  obtain ⟨T, a, X, hdecomp, hlenT⟩ :
      ∃ T a X, l = T ++ a :: X ∧ T.length = i :=
    ⟨l.take i, l[i], l.drop (i + 1),
      by rw [← List.drop_eq_getElem_cons h, List.take_append_drop],
      List.length_take_of_le (by omega)⟩
  subst hdecomp
  subst hlenT
  rcases X.eq_nil_or_concat with hX | ⟨R, z, hX⟩
  · subst hX
    rw [swapRemove_concat_nil, List.take_left, List.take_length]
  · subst hX
    rw [List.concat_eq_append, swapRemove_mid, List.take_left, List.take_left]

theorem swapRemove_drop_perm {l : List Nat} {i : Nat} (h : i < l.length) :
    ((swapRemove l i).drop i).Perm (l.drop (i + 1)) := by
  obtain ⟨T, a, X, hdecomp, hlenT⟩ :
      ∃ T a X, l = T ++ a :: X ∧ T.length = i :=
    ⟨l.take i, l[i], l.drop (i + 1),
      by rw [← List.drop_eq_getElem_cons h, List.take_append_drop],
      List.length_take_of_le (by omega)⟩
  subst hdecomp
  subst hlenT
  rcases X.eq_nil_or_concat with hX | ⟨R, z, hX⟩
  · subst hX
    rw [swapRemove_concat_nil, List.drop_eq_nil_of_le (Nat.le_refl _),
      List.drop_eq_nil_of_le (by simp)]
  · subst hX
    rw [List.concat_eq_append, swapRemove_mid, List.drop_left,
      show T ++ a :: (R ++ [z]) = (T ++ [a]) ++ (R ++ [z]) by simp,
      List.drop_left' (by simp)]
    exact (List.perm_append_singleton z R).symm

/-- Loop invariant: the scan keeps the already-scanned prefix and, up to
order, filters the rest. -/
theorem removeLoop_perm (p : Nat) : ∀ (m i : Nat) (l : List Nat), l.length - i ≤ m →
    (removeLoop p i l).Perm
      (l.take i ++ (l.drop i).filter (fun u => !(u &&& p == p))) := by
  intro m
  induction m with
  | zero =>
    intro i l hm
    have hi : ¬ i < l.length := by omega
    rw [removeLoop_done hi, List.take_of_length_le (by omega),
      List.drop_eq_nil_of_le (by omega)]
    simp
  | succ m ih =>
    intro i l hm
    by_cases hi : i < l.length
    · have hgetD : l.getD i 0 = l[i] := by
        simp [List.getD_eq_getElem?_getD, List.getElem?_eq_getElem hi]
      by_cases hp : l.getD i 0 &&& p = p
      · rw [removeLoop_hit hi hp]
        have h1 := ih i (swapRemove l i) (by rw [swapRemove_length]; omega)
        rw [swapRemove_take hi] at h1
        have h2 : (((swapRemove l i).drop i).filter (fun u => !(u &&& p == p))).Perm
            ((l.drop (i + 1)).filter (fun u => !(u &&& p == p))) :=
          (swapRemove_drop_perm hi).filter _
        have h3 : (l.drop i).filter (fun u => !(u &&& p == p)) =
            (l.drop (i + 1)).filter (fun u => !(u &&& p == p)) := by
          rw [List.drop_eq_getElem_cons hi, List.filter_cons]
          have hcond : (!(l[i] &&& p == p)) = false := by
            rw [← hgetD, hp]
            simp
          rw [hcond]
          simp
        rw [h3]
        exact h1.trans (List.Perm.append_left _ h2)
      · rw [removeLoop_miss hi hp]
        have h1 := ih (i + 1) l (by omega)
        have h2 : l.take (i + 1) = l.take i ++ [l[i]] := by
          rw [← List.take_concat_get l i hi, List.concat_eq_append]
        have h3 : (l.drop i).filter (fun u => !(u &&& p == p)) =
            l[i] :: (l.drop (i + 1)).filter (fun u => !(u &&& p == p)) := by
          rw [List.drop_eq_getElem_cons hi, List.filter_cons]
          have hcond : (!(l[i] &&& p == p)) = true := by
            rw [← hgetD]
            simp only [Bool.not_eq_true']
            exact beq_eq_false_iff_ne.mpr hp
          rw [hcond]
          simp
        rw [h3]
        refine h1.trans ?_
        rw [h2, List.append_assoc, List.singleton_append]
    · rw [removeLoop_done hi, List.take_of_length_le (by omega),
        List.drop_eq_nil_of_le (by omega)]
      simp

/-- `remove_impossible_universes` keeps, up to order, exactly the
universes not containing the pair. -/
theorem remove_perm (p : Nat) (l : List Nat) :
    (remove_impossible_universes p l).Perm (l.filter (fun u => !(u &&& p == p))) := by
  have := removeLoop_perm p l.length 0 l (by omega)
  simpa using this

/-! The AND-reduction (`iter().cloned().reduce(|acc, v| acc & v)`). -/

def reduceAnd : List Nat → Option Nat
  | [] => none
  | x :: xs => some (xs.foldl (· &&& ·) x)

theorem foldl_and_init (i j : Nat) : ∀ l : List Nat,
    l.foldl (· &&& ·) (i &&& j) = i &&& l.foldl (· &&& ·) j := by
  intro l
  induction l generalizing j with
  | nil => rfl
  | cons a l ih =>
    show l.foldl (· &&& ·) (i &&& j &&& a) = i &&& l.foldl (· &&& ·) (j &&& a)
    rw [Nat.and_assoc, ih]

theorem foldl_and_le : ∀ (l : List Nat) (b : Nat), l.foldl (· &&& ·) b ≤ b := by
  intro l
  induction l with
  | nil => intro b; exact Nat.le_refl b
  | cons a l ih =>
    intro b
    calc (a :: l).foldl (· &&& ·) b = l.foldl (· &&& ·) (b &&& a) := by rw [List.foldl_cons]
    _ ≤ b &&& a := ih _
    _ ≤ b := Nat.and_le_left

/-- The AND-reduction only depends on the multiset of entries. -/
theorem reduceAnd_perm {l₁ l₂ : List Nat} (h : l₁.Perm l₂) : reduceAnd l₁ = reduceAnd l₂ := by
  cases l₁ with
  | nil =>
    have : l₂ = [] := by
      have := h.length_eq
      simp at this
      exact List.length_eq_zero.mp this.symm
    rw [this]
  | cons x xs =>
    cases l₂ with
    | nil =>
      have := h.length_eq
      simp at this
    | cons y ys =>
      show some _ = some _
      have hcomm : ∀ a b c : Nat, a &&& b &&& c = a &&& c &&& b := fun a b c => by
        rw [Nat.and_assoc, Nat.and_assoc, Nat.and_comm b c]
      have hfold : ∀ init : Nat,
          (x :: xs).foldl (· &&& ·) init = (y :: ys).foldl (· &&& ·) init :=
        fun init => h.foldl_eq' (fun a _ b _ z => hcomm z a b) init
      have hA2 : xs.foldl (· &&& ·) x = x &&& ys.foldl (· &&& ·) y := by
        calc xs.foldl (· &&& ·) x = xs.foldl (· &&& ·) (x &&& x) := by rw [Nat.and_self]
        _ = (x :: xs).foldl (· &&& ·) x := by rw [List.foldl_cons]
        _ = (y :: ys).foldl (· &&& ·) x := hfold x
        _ = ys.foldl (· &&& ·) (x &&& y) := by rw [List.foldl_cons]
        _ = x &&& ys.foldl (· &&& ·) y := foldl_and_init x y ys
      have hB2 : ys.foldl (· &&& ·) y = y &&& xs.foldl (· &&& ·) x := by
        calc ys.foldl (· &&& ·) y = ys.foldl (· &&& ·) (y &&& y) := by rw [Nat.and_self]
        _ = (y :: ys).foldl (· &&& ·) y := by rw [List.foldl_cons]
        _ = (x :: xs).foldl (· &&& ·) y := (hfold y).symm
        _ = xs.foldl (· &&& ·) (y &&& x) := by rw [List.foldl_cons]
        _ = y &&& xs.foldl (· &&& ·) x := foldl_and_init y x xs
      have h5 : y &&& ys.foldl (· &&& ·) y = ys.foldl (· &&& ·) y := by
        conv_lhs => rw [hB2]
        rw [← Nat.and_assoc, Nat.and_self, ← hB2]
      have h7 : y &&& xs.foldl (· &&& ·) x = xs.foldl (· &&& ·) x := by
        conv_lhs => rw [hA2]
        rw [← Nat.and_assoc, Nat.and_comm y x, Nat.and_assoc, h5, ← hA2]
      rw [hB2, h7]

theorem reduceAnd_le_mem {l : List Nat} {x : Nat} (h : reduceAnd l = some x) :
    ∃ u ∈ l, x ≤ u := by
  cases l with
  | nil => cases h
  | cons a as =>
    simp only [reduceAnd, Option.some.injEq] at h
    exact ⟨a, List.mem_cons_self a as, h ▸ foldl_and_le as a⟩

/-! The search in `main`. -/

/-- Rust `Vec` indexing `v[i]`: aborts when out of bounds. -/
def listIndex (l : List Nat) (i : Nat) : Except String Nat :=
  if h : i < l.length then .ok (l.get ⟨i, h⟩) else .error "index out of bounds"

/-- One printed solution record: the canonical first pair's elements, the
five further pairs' elements, and the elements of the final invariant
set, exactly the data `println!` writes. -/
structure Solution where
  first : List Nat
  steps : List (List Nat)
  final : List Nat
  deriving DecidableEq

/-- The inner filtering loop of `main`: for each index in `five_steps`,
filter the universe list by `all_battery_pairs[pair]`. -/
def applyFilters (pairs universes : List Nat) (w : Nat) : Except String (List Nat) :=
  (bitIndices w).foldlM
    (fun acc i => (listIndex pairs i).map (fun p => remove_impossible_universes p acc))
    universes

/-- The emission decision of `main`: AND-reduce the surviving universes
and, when the guard `Some(x) if x.len() >= 2` fires, build the printed
record (re-indexing the pair table as the `print!` loop does). -/
def emitSolution (pairs : List Nat) (w : Nat) (remaining : List Nat) :
    Except String (Option Solution) :=
  match reduceAnd remaining with
  | some x =>
    if 2 ≤ countOnes x then
      match listIndex pairs 0 with
      | .error e => .error e
      | .ok p0 =>
        match (bitIndices w).mapM (fun i => (listIndex pairs i).map bitIndices) with
        | .error e => .error e
        | .ok steps => .ok (some ⟨bitIndices p0, steps, bitIndices x⟩)
    else .ok none
  | none => .ok none

/-- One iteration of the search loop in `main`: filter by the five chosen
pairs, then decide emission. -/
def searchStep (pairs universes : List Nat) (w : Nat) : Except String (Option Solution) :=
  match applyFilters pairs universes w with
  | .error e => .error e
  | .ok remaining => emitSolution pairs w remaining

/-- The outer loop of `main` over all candidate quintuples. -/
def runSearch (pairs universes : List Nat) : List Nat → Except String (List Solution)
  | [] => .ok []
  | w :: ws =>
    match searchStep pairs universes w with
    | .error e => .error e
    | .ok r =>
      match runSearch pairs universes ws with
      | .error e => .error e
      | .ok rest => .ok (match r with | some s => s :: rest | none => rest)

/-- The whole of `main`: its list of printed solution records (or the
abort message). -/
def mainSearch : Except String (List Solution) :=
  ((CombinationIter.new 8 2).bind collect).bind (fun all_battery_pairs =>
    (listIndex all_battery_pairs 0).bind (fun p0 =>
      ((CombinationIter.new 8 4).bind collect).bind (fun univs =>
        ((CombinationIter.new (all_battery_pairs.length) 5).bind collect).bind (fun seq =>
          runSearch all_battery_pairs (remove_impossible_universes p0 univs) seq))))

/-- Pure (total) counterpart of `searchStep`, used once indexing is known
to be in bounds. -/
def applyFiltersPure (pairs universes : List Nat) (w : Nat) : List Nat :=
  (bitIndices w).foldl (fun acc i => remove_impossible_universes (pairs.getD i 0) acc) universes

def searchStepPure (pairs universes : List Nat) (w : Nat) : Option Solution :=
  match reduceAnd (applyFiltersPure pairs universes w) with
  | some x =>
    if 2 ≤ countOnes x then
      some ⟨bitIndices (pairs.getD 0 0),
        (bitIndices w).map (fun i => bitIndices (pairs.getD i 0)), bitIndices x⟩
    else none
  | none => none

/-- Fuel-based executable variant (kernel-evaluable). -/
def applyFiltersExec (pairs universes : List Nat) (w : Nat) : List Nat :=
  (bitIndices w).foldl (fun acc i => removeExec (pairs.getD i 0) acc) universes

def searchStepExec (pairs universes : List Nat) (w : Nat) : Option Solution :=
  match reduceAnd (applyFiltersExec pairs universes w) with
  | some x =>
    if 2 ≤ countOnes x then
      some ⟨bitIndices (pairs.getD 0 0),
        (bitIndices w).map (fun i => bitIndices (pairs.getD i 0)), bitIndices x⟩
    else none
  | none => none

theorem applyFiltersPure_eq_exec (pairs universes : List Nat) (w : Nat) :
    applyFiltersPure pairs universes w = applyFiltersExec pairs universes w := by
  unfold applyFiltersPure applyFiltersExec
  simp only [remove_eq_exec]

theorem searchStepPure_eq_exec (pairs universes : List Nat) (w : Nat) :
    searchStepPure pairs universes w = searchStepExec pairs universes w := by
  unfold searchStepPure searchStepExec
  rw [applyFiltersPure_eq_exec]

theorem listIndex_ok {l : List Nat} {i : Nat} (h : i < l.length) :
    listIndex l i = .ok (l.getD i 0) := by
  unfold listIndex
  rw [dif_pos h]
  congr 1
  simp [List.getD_eq_getElem?_getD, List.getElem?_eq_getElem h]

theorem filters_foldlM_ok : ∀ (l pairs universes : List Nat),
    (∀ i ∈ l, i < pairs.length) →
    l.foldlM (fun acc i => (listIndex pairs i).map
        (fun p => remove_impossible_universes p acc)) universes
      = .ok (l.foldl (fun acc i => remove_impossible_universes (pairs.getD i 0) acc)
          universes) := by
  intro l
  induction l with
  | nil => intro pairs universes h; rfl
  | cons a l ih =>
    intro pairs universes h
    rw [List.foldlM_cons, listIndex_ok (h a (List.mem_cons_self a l))]
    show Except.bind _ _ = _
    rw [show Except.map (fun p => remove_impossible_universes p universes)
        (Except.ok (pairs.getD a 0))
      = Except.ok (remove_impossible_universes (pairs.getD a 0) universes) from rfl]
    show l.foldlM _ _ = _
    rw [ih pairs _ (fun i hi => h i (List.mem_cons_of_mem a hi)), List.foldl_cons]

theorem steps_mapM_ok : ∀ (l pairs : List Nat), (∀ i ∈ l, i < pairs.length) →
    l.mapM (fun i => (listIndex pairs i).map bitIndices)
      = .ok (l.map (fun i => bitIndices (pairs.getD i 0))) := by
  intro l
  induction l with
  | nil => intro pairs h; rfl
  | cons a l ih =>
    intro pairs h
    rw [List.mapM_cons, listIndex_ok (h a (List.mem_cons_self a l))]
    show Except.bind _ _ = _
    rw [show Except.map bitIndices (Except.ok (pairs.getD a 0))
      = Except.ok (bitIndices (pairs.getD a 0)) from rfl]
    show Except.bind (l.mapM _) _ = _
    rw [ih pairs (fun i hi => h i (List.mem_cons_of_mem a hi))]
    rfl

theorem applyFilters_ok {pairs universes : List Nat} {w : Nat}
    (h : ∀ i ∈ bitIndices w, i < pairs.length) :
    applyFilters pairs universes w = .ok (applyFiltersPure pairs universes w) :=
  filters_foldlM_ok (bitIndices w) pairs universes h

theorem searchStep_ok {pairs universes : List Nat} {w : Nat}
    (hlen : 0 < pairs.length) (h : ∀ i ∈ bitIndices w, i < pairs.length) :
    searchStep pairs universes w = .ok (searchStepPure pairs universes w) := by
  unfold searchStep
  rw [applyFilters_ok h]
  show emitSolution pairs w (applyFiltersPure pairs universes w) = _
  unfold emitSolution searchStepPure
  cases hred : reduceAnd (applyFiltersPure pairs universes w) with
  | none => rfl
  | some x =>
    dsimp only
    by_cases hx : 2 ≤ countOnes x
    · rw [if_pos hx, if_pos hx, listIndex_ok hlen, steps_mapM_ok (bitIndices w) pairs h]
    · rw [if_neg hx, if_neg hx]

theorem runSearch_ok : ∀ {ws : List Nat} {pairs universes : List Nat},
    0 < pairs.length →
    (∀ w ∈ ws, ∀ i ∈ bitIndices w, i < pairs.length) →
    runSearch pairs universes ws
      = .ok (ws.filterMap (searchStepPure pairs universes)) := by
  intro ws
  induction ws with
  | nil => intro pairs universes h1 h2; rfl
  | cons w ws ih =>
    intro pairs universes h1 h2
    rw [runSearch, searchStep_ok h1 (h2 w (List.mem_cons_self w ws)),
      ih h1 (fun v hv => h2 v (List.mem_cons_of_mem w hv))]
    cases hs : searchStepPure pairs universes w <;>
      simp [List.filterMap_cons, hs]

/-! Concrete data of the fixed puzzle (8 batteries, 4 functional). -/

/-- The 28 pairs `CombinationIter::new(8, 2)` yields, in order. -/
def pairs28 : List Nat :=
  [3, 5, 6, 9, 10, 12, 17, 18, 20, 24, 33, 34, 36, 40, 48, 65, 66, 68, 72, 80,
   96, 129, 130, 132, 136, 144, 160, 192]

/-- The 70 universes `CombinationIter::new(8, 4)` yields, in order. -/
def univ70 : List Nat :=
  [15, 23, 27, 29, 30, 39, 43, 45, 46, 51, 53, 54, 57, 58, 60, 71, 75, 77, 78,
   83, 85, 86, 89, 90, 92, 99, 101, 102, 105, 106, 108, 113, 114, 116, 120,
   135, 139, 141, 142, 147, 149, 150, 153, 154, 156, 163, 165, 166, 169, 170,
   172, 177, 178, 180, 184, 195, 197, 198, 201, 202, 204, 209, 210, 212, 216,
   225, 226, 228, 232, 240]

/-- The 55 universes surviving the first (canonical) pair `{0, 1}`, in
the `swap_remove` order the program produces. -/
def univ55 : List Nat :=
  [240, 232, 228, 29, 30, 226, 225, 45, 46, 216, 53, 54, 57, 58, 60, 212, 210,
   77, 78, 209, 85, 86, 89, 90, 92, 204, 101, 102, 105, 106, 108, 113, 114,
   116, 120, 202, 201, 141, 142, 198, 149, 150, 153, 154, 156, 197, 165, 166,
   169, 170, 172, 177, 178, 180, 184]

theorem except_bind_ok {α β : Type} (a : α) (f : α → Except String β) :
    (Except.ok a).bind f = f a := rfl

theorem pairs28_spec : (CombinationIter.new 8 2).bind collect = Except.ok pairs28 := by
  have h2 : collectFuel 29 ⟨3, 8⟩ = Except.ok pairs28 := by rfl
  have h1 : CombinationIter.new 8 2 = Except.ok ⟨3, 8⟩ := rfl
  rw [h1, except_bind_ok]
  exact collectFuel_ok h2

theorem univ70_spec : (CombinationIter.new 8 4).bind collect = Except.ok univ70 := by
  have h2 : collectFuel 71 ⟨15, 8⟩ = Except.ok univ70 := by rfl
  have h1 : CombinationIter.new 8 4 = Except.ok ⟨15, 8⟩ := rfl
  rw [h1, except_bind_ok]
  exact collectFuel_ok h2

theorem univ55_spec : remove_impossible_universes 3 univ70 = univ55 := by
  rw [remove_eq_exec]
  rfl

theorem seq285_spec :
    (CombinationIter.new 28 5).bind collect = Except.ok (combList 28 5) := by
  have h := iter_spec 28 5 (by norm_num) (by norm_num) (by norm_num)
  rw [h.1, except_bind_ok]
  exact h.2

theorem mem_combList_285 {w : Nat} (h : w ∈ combList 28 5) :
    countOnes w = 5 ∧ w < 2 ^ 28 := by
  unfold combList at h
  have := mem_refListAux.mp h
  exact ⟨this.1, by omega⟩

theorem bitIndices_285_bound : ∀ w ∈ combList 28 5, ∀ i ∈ bitIndices w,
    i < pairs28.length := by
  intro w hw i hi
  have hw2 := mem_combList_285 hw
  have h2i := mem_bitIndices_two_pow_le hi
  have hlt : 2 ^ i < 2 ^ 28 := by omega
  have := (Nat.pow_lt_pow_iff_right (show 1 < 2 by norm_num)).mp hlt
  rw [show pairs28.length = 28 from rfl]
  exact this

/-- The solutions `main` prints, as the order-preserving filter of the
candidate sequence. -/
def mainSolutions : List Solution :=
  (combList 28 5).filterMap (searchStepPure pairs28 univ55)

theorem mainSearch_step1 :
    mainSearch = runSearch pairs28 (remove_impossible_universes 3 univ70) (combList 28 5) := by
  unfold mainSearch
  rw [pairs28_spec, except_bind_ok]
  beta_reduce
  rw [show listIndex pairs28 0 = Except.ok 3 from rfl, except_bind_ok]
  beta_reduce
  rw [univ70_spec, except_bind_ok]
  beta_reduce
  rw [show pairs28.length = 28 from rfl, seq285_spec, except_bind_ok]

theorem mainSearch_step2 :
    runSearch pairs28 univ55 (combList 28 5) = Except.ok mainSolutions := by
  rw [runSearch_ok (by norm_num [pairs28]) bitIndices_285_bound]
  rfl

theorem mainSearch_eq : mainSearch = Except.ok mainSolutions := by
  rw [mainSearch_step1, univ55_spec, mainSearch_step2]

/-! Properties of the printed solutions. -/

theorem mem_combList {n k w : Nat} : w ∈ combList n k ↔ countOnes w = k ∧ w < 2 ^ n := by
  unfold combList
  rw [mem_refListAux]
  omega

theorem mem_remove_subset {p u : Nat} {l : List Nat}
    (h : u ∈ remove_impossible_universes p l) : u ∈ l :=
  List.mem_of_mem_filter ((remove_perm p l).mem_iff.mp h)

theorem mem_foldl_remove {pairs : List Nat} {u : Nat} : ∀ (l : List Nat) {universes : List Nat},
    u ∈ l.foldl (fun acc i => remove_impossible_universes (pairs.getD i 0) acc) universes →
    u ∈ universes := by
  intro l
  induction l with
  | nil => intro universes h; exact h
  | cons a l ih =>
    intro universes h
    rw [List.foldl_cons] at h
    exact mem_remove_subset (ih h)

theorem mem_applyFiltersPure {pairs universes : List Nat} {w u : Nat}
    (h : u ∈ applyFiltersPure pairs universes w) : u ∈ universes :=
  mem_foldl_remove (bitIndices w) h

theorem pairs28_facts : ∀ p ∈ pairs28, countOnes p = 2 ∧ p < 256 := by
  intro p hp
  fin_cases hp <;> exact ⟨by decide, by norm_num⟩

theorem univ55_facts : ∀ u ∈ univ55, u < 256 := by
  intro u hu
  fin_cases hu <;> norm_num

theorem getD_mem {l : List Nat} {i : Nat} (h : i < l.length) : l.getD i 0 ∈ l := by
  rw [List.getD_eq_getElem?_getD, List.getElem?_eq_getElem h]
  exact List.getElem_mem h

theorem bitIndices_lt_of_lt {v m i : Nat} (hv : v < 2 ^ m) (hi : i ∈ bitIndices v) : i < m := by
  have h2 := mem_bitIndices_two_pow_le hi
  by_contra hm
  push_neg at hm
  have : 2 ^ m ≤ 2 ^ i := Nat.pow_le_pow_right (by norm_num) hm
  omega

theorem sol0_step : searchStepPure pairs28 univ55 3872
    = some ⟨[0, 1], [[2, 3], [2, 4], [3, 4], [0, 5], [1, 5]], [6, 7]⟩ := by
  rw [searchStepPure_eq_exec]
  rfl

theorem sol0_mem : (⟨[0, 1], [[2, 3], [2, 4], [3, 4], [0, 5], [1, 5]], [6, 7]⟩ : Solution)
    ∈ mainSolutions := by
  unfold mainSolutions
  exact List.mem_filterMap.mpr ⟨3872, mem_combList.mpr ⟨by decide, by norm_num⟩, sol0_step⟩

theorem mainSolutions_ne_nil : mainSolutions ≠ [] :=
  List.ne_nil_of_mem sol0_mem

theorem mainSolutions_shape : ∀ s ∈ mainSolutions,
    s.first = [0, 1] ∧ s.steps.length = 5 ∧
    (∀ p ∈ s.steps, p.length = 2 ∧ p.Nodup ∧ ∀ e ∈ p, e < 8) ∧
    2 ≤ s.final.length ∧ s.final.Nodup ∧ (∀ e ∈ s.final, e < 8) := by
  intro s hs
  obtain ⟨w, hw, hsw⟩ := List.mem_filterMap.mp hs
  obtain ⟨hc5, hwlt⟩ := mem_combList.mp hw
  unfold searchStepPure at hsw
  cases hred : reduceAnd (applyFiltersPure pairs28 univ55 w) with
  | none => rw [hred] at hsw; simp at hsw
  | some x =>
    rw [hred] at hsw
    dsimp only at hsw
    by_cases hx : 2 ≤ countOnes x
    · rw [if_pos hx] at hsw
      have hs' := (Option.some.injEq _ _).mp hsw
      subst hs'
      have hxlt : x < 256 := by
        obtain ⟨u, hu, hxu⟩ := reduceAnd_le_mem hred
        have := univ55_facts u (mem_applyFiltersPure hu)
        omega
      refine ⟨rfl, ?_, ?_, ?_, ?_, ?_⟩
      · show ((bitIndices w).map _).length = 5
        rw [List.length_map, length_bitIndices, hc5]
      · intro p hp
        obtain ⟨i, hi, rfl⟩ := List.mem_map.mp hp
        have hi28 : i < 28 := bitIndices_lt_of_lt hwlt hi
        have hmem : pairs28.getD i 0 ∈ pairs28 :=
          getD_mem (by rw [show pairs28.length = 28 from rfl]; exact hi28)
        obtain ⟨hc2, hlt⟩ := pairs28_facts _ hmem
        refine ⟨by rw [length_bitIndices, hc2], bitIndices_nodup _, fun e he => ?_⟩
        exact bitIndices_lt_of_lt (show pairs28.getD i 0 < 2 ^ 8 by omega) he
      · show 2 ≤ (bitIndices x).length
        rw [length_bitIndices]
        exact hx
      · exact bitIndices_nodup x
      · intro e he
        exact bitIndices_lt_of_lt (show x < 2 ^ 8 by omega) he
    · rw [if_neg hx] at hsw
      simp at hsw

/-! Settling the claims. -/

theorem combList_self (k : Nat) (h1 : 1 ≤ k) : combList k k = [2 ^ k - 1] := by
  have hone : (1 : Nat) ≤ 2 ^ k := Nat.one_le_two_pow
  have hco : countOnes (2 ^ k - 1) = k := countOnes_two_pow_sub_one k
  unfold combList
  rw [@refListAux_skip k (2 ^ k) 0 (2 ^ k - 1) (Nat.zero_le _) (by omega)
    (fun w hw1 hw2 hc => by
      have := two_pow_sub_one_le_of_countOnes w
      rw [hc] at this
      omega)]
  rw [show 0 + 2 ^ k - (2 ^ k - 1) = 0 + 1 from by omega, refListAux_cons hco]
  rfl

/-- Claim C1: the claim asserts that for all `0 < k ≤ n ≤ 64` the enumerator
yields exactly `C(n, k)` distinct popcount-`k` bitmasks below `2^n`.  This
holds for `n ≤ 63` (first conjunct), but at `n = 64` — allowed by the claim —
the very first `next()` call evaluates `1 << self.n` with `n = 64`, a shift
overflow that panics in a debug build before any element is yielded (second
conjunct): the code's own assertion message notwithstanding, `n = 64` is not
supported. -/
theorem claim_C1 :
    (∀ n k, 1 ≤ k → k ≤ n → n ≤ 63 →
        CombinationIter.new n k = Except.ok ⟨2 ^ k - 1, n⟩ ∧
        collect ⟨2 ^ k - 1, n⟩ = Except.ok (combList n k) ∧
        (combList n k).length = n.choose k ∧
        (combList n k).Nodup ∧
        ∀ w ∈ combList n k, countOnes w = k ∧ w < 2 ^ n) ∧
    (CombinationIter.new 64 1).bind collect
      = Except.error "attempt to shift left with overflow" := by
  constructor
  · intro n k h1 h2 h3
    obtain ⟨ha, hb⟩ := iter_spec n k h1 h2 h3
    exact ⟨ha, hb, combList_length n k, combList_nodup n k, fun w hw => mem_combList.mp hw⟩
  · rw [show CombinationIter.new 64 1 = Except.ok ⟨1, 64⟩ from rfl, except_bind_ok]
    exact collect_error rfl

/-- Claim C2: the full search succeeds, prints at least one solution, and
every printed record is well-formed: the canonical first pair and each of the
five subsequent pairs have exactly 2 distinct elements in `{0, …, 7}`, and
the final set has at least 2 distinct elements, all in `{0, …, 7}`. -/
theorem claim_C2 :
    mainSearch = Except.ok mainSolutions ∧
    mainSolutions ≠ [] ∧
    ∀ s ∈ mainSolutions,
      s.first.length = 2 ∧ s.first.Nodup ∧ (∀ e ∈ s.first, e < 8) ∧
      s.steps.length = 5 ∧
      (∀ p ∈ s.steps, p.length = 2 ∧ p.Nodup ∧ ∀ e ∈ p, e < 8) ∧
      2 ≤ s.final.length ∧ s.final.Nodup ∧ (∀ e ∈ s.final, e < 8) := by
  refine ⟨mainSearch_eq, mainSolutions_ne_nil, fun s hs => ?_⟩
  obtain ⟨hfirst, hlen, hsteps, hflen, hfnd, hflt⟩ := mainSolutions_shape s hs
  rw [hfirst]
  exact ⟨rfl, by decide, by decide, hlen, hsteps, hflen, hfnd, hflt⟩

/-- Claim C3: `remove_impossible_universes(p, U)` keeps, up to the reordering
introduced by `swap_remove`, exactly the universes of `U` that do not contain
the pair: it is a permutation of the order-preserving filter, and membership
is exactly membership in `U` plus `¬ (u ∩ p = p)`. -/
theorem claim_C3 : ∀ (p : Nat) (U : List Nat),
    (remove_impossible_universes p U).Perm (U.filter (fun u => !(u &&& p == p))) ∧
    ∀ u, u ∈ remove_impossible_universes p U ↔ u ∈ U ∧ ¬ u &&& p = p := by
  intro p U
  refine ⟨remove_perm p U, fun u => ?_⟩
  rw [(remove_perm p U).mem_iff, List.mem_filter]
  simp

/-- Claim C4: the enumerator for `n = 4, k = 2` yields exactly the bitmasks
`0b0011, 0b0101, 0b0110, 0b1001, 0b1010, 0b1100` in that order and then
terminates. -/
theorem claim_C4 :
    (CombinationIter.new 4 2).bind collect = Except.ok [3, 5, 6, 9, 10, 12] := by
  rw [show CombinationIter.new 4 2 = Except.ok ⟨3, 4⟩ from rfl, except_bind_ok]
  exact collectFuel_ok (show collectFuel 8 ⟨3, 4⟩ = Except.ok [3, 5, 6, 9, 10, 12] from rfl)

/-- Claim C5: the claim asserts that for all `0 < k ≤ 64` the enumerator over
`(k, k)` yields exactly `[2^k − 1]`.  This holds for `k ≤ 63` (first
conjunct), but at `k = 64` — allowed by the claim — the constructor itself
evaluates `1 << k` with `k = 64`, a shift overflow that panics in a debug
build (second conjunct). -/
theorem claim_C5 :
    (∀ k, 1 ≤ k → k ≤ 63 →
        CombinationIter.new k k = Except.ok ⟨2 ^ k - 1, k⟩ ∧
        collect ⟨2 ^ k - 1, k⟩ = Except.ok [2 ^ k - 1]) ∧
    CombinationIter.new 64 64 = Except.error "attempt to shift left with overflow" := by
  constructor
  · intro k h1 h3
    obtain ⟨ha, hb⟩ := iter_spec k k h1 le_rfl h3
    rw [combList_self k h1] at hb
    exact ⟨ha, hb⟩
  · rfl

/-- Claim C6: if the universe-set is empty after the five filters, the
AND-reduction yields no value and the candidate produces no solution
record. -/
theorem claim_C6 : ∀ (pairs universes : List Nat) (w : Nat),
    applyFilters pairs universes w = Except.ok [] →
    searchStep pairs universes w = Except.ok none := by
  intro pairs universes w h
  unfold searchStep
  rw [h]
  rfl

/-- Witness for claim C6 at a concrete input: one pair, no universes. -/
theorem claim_C6_witness :
    applyFilters [3] [] 0 = Except.ok [] ∧ searchStep [3] [] 0 = Except.ok none :=
  ⟨rfl, claim_C6 [3] [] 0 rfl⟩

/-- Claim C7: every invocation of `CombinationIter::new` with `k = 0`,
`k > n` or `n > 65` fails one of the constructor's assertions before any
element is produced. -/
theorem claim_C7 : ∀ (n k : Nat), k = 0 ∨ n < k ∨ 65 < n →
    ∃ msg, CombinationIter.new n k = Except.error msg := by
  intro n k h
  unfold CombinationIter.new
  rcases h with h | h | h
  · by_cases h1 : ¬ n ≥ k
    · rw [if_pos h1]
      exact ⟨_, rfl⟩
    · rw [if_neg h1]
      by_cases h2 : ¬ n ≤ 65
      · rw [if_pos h2]
        exact ⟨_, rfl⟩
      · rw [if_neg h2, if_pos (show ¬ k > 0 by omega)]
        exact ⟨_, rfl⟩
  · rw [if_pos (show ¬ n ≥ k by omega)]
    exact ⟨_, rfl⟩
  · by_cases h1 : ¬ n ≥ k
    · rw [if_pos h1]
      exact ⟨_, rfl⟩
    · rw [if_neg h1, if_pos (show ¬ n ≤ 65 by omega)]
      exact ⟨_, rfl⟩

/-- Witness for claim C7 at the concrete invalid input `n = 5, k = 0`. -/
theorem claim_C7_witness :
    (0 = 0 ∨ 5 < 0 ∨ 65 < 5) ∧ ∃ msg, CombinationIter.new 5 0 = Except.error msg :=
  ⟨Or.inl rfl, claim_C7 5 0 (Or.inl rfl)⟩

/-- Claim C8: for the two universes `{0,1,2,3}` (mask 15) and `{0,1,2,4}`
(mask 23), the AND-reduction yields `{0,1,2}` (mask 7), whose population
count 3 passes the `≥ 2` cardinality check of `main`. -/
theorem claim_C8 :
    bitIndices 15 = [0, 1, 2, 3] ∧ bitIndices 23 = [0, 1, 2, 4] ∧
    reduceAnd [15, 23] = some (15 &&& 23) ∧ 15 &&& 23 = 7 ∧
    bitIndices 7 = [0, 1, 2] ∧ countOnes 7 = 3 ∧ 2 ≤ countOnes 7 :=
  ⟨rfl, rfl, rfl, rfl, rfl, rfl, by decide⟩

/-- Claim C9: `all_battery_pairs` has length 28, every index a candidate
quintuple yields through `BitSetIter` is below 28, so every subscript
`all_battery_pairs[pair]` (and `all_battery_pairs[0]`) is in bounds — and
consequently the whole search runs to completion without an
out-of-bounds abort. -/
theorem claim_C9 :
    pairs28.length = 28 ∧
    (CombinationIter.new 8 2).bind collect = Except.ok pairs28 ∧
    (CombinationIter.new 28 5).bind collect = Except.ok (combList 28 5) ∧
    (∀ w ∈ combList 28 5, ∀ i ∈ bitIndices w,
        i < pairs28.length ∧ listIndex pairs28 i = Except.ok (pairs28.getD i 0)) ∧
    listIndex pairs28 0 = Except.ok 3 ∧
    mainSearch = Except.ok mainSolutions := by
  refine ⟨rfl, pairs28_spec, seq285_spec, ?_, rfl, mainSearch_eq⟩
  intro w hw i hi
  have h := bitIndices_285_bound w hw i hi
  exact ⟨h, listIndex_ok h⟩

/-- Claim C10: the AND-reduction over the `swap_remove`-reordered result of
`remove_impossible_universes` equals the reduction over the order-preserving
filter of the same input: the filter-then-reduce pipeline depends only on
the set of kept universes. -/
theorem claim_C10 : ∀ (p : Nat) (U : List Nat),
    reduceAnd (remove_impossible_universes p U)
      = reduceAnd (U.filter (fun u => !(u &&& p == p))) :=
  fun p U => reduceAnd_perm (remove_perm p U)
